import Mathlib

/-!
Shallow embedding of the core of the comfyui-sdk repository
(pool leasing / session lifecycle / poll loop / leaf extraction /
artifact pipeline / output mapping), together with proofs checking the
natural-language specification against the code.

JavaScript numbers are modelled as exact naturals/rationals (all quantities
involved are small non-negative integers and their exact ratios); JS strings
are modelled as Lean `String` (or `List Char` where character-level reasoning
is needed); JS plain objects are modelled as insertion-ordered association
lists, matching JS object key ordering and `Map` semantics.
-/

namespace ComfyUISDK

/-- Lookup in an insertion-ordered association list (JS `obj[k]` / `Map.get`). -/
def assocGet {α : Type} (l : List (String × α)) (k : String) : Option α :=
  match l with
  | [] => none
  | (k', v) :: rest => if k' = k then some v else assocGet rest k

/-- Update-or-append in an association list (JS `obj[k] = v` / `Map.set`:
an existing key keeps its position, a new key is appended). -/
def assocSet {α : Type} (l : List (String × α)) (k : String) (v : α) : List (String × α) :=
  match l with
  | [] => [(k, v)]
  | (k', v') :: rest => if k' = k then (k, v) :: rest else (k', v') :: assocSet rest k v

/-- Update the element at one position of a list, leaving the rest unchanged
(JS `arr[i] = f(arr[i])` for an in-range index; out of range: no element changes). -/
def updateAt {α : Type} (f : α → α) : ℕ → List α → List α
  | _, [] => []
  | 0, x :: xs => f x :: xs
  | n + 1, x :: xs => x :: updateAt f n xs

theorem assocGet_set_eq {α : Type} (l : List (String × α)) (k : String) (v : α) :
    assocGet (assocSet l k v) k = some v := by
  induction l with
  | nil => simp [assocGet, assocSet]
  | cons hd tl ih =>
    obtain ⟨k', v'⟩ := hd
    by_cases h : k' = k <;> simp [assocGet, assocSet, h, ih]

theorem assocGet_set_ne {α : Type} (l : List (String × α)) (k k' : String) (v : α)
    (h : k ≠ k') : assocGet (assocSet l k v) k' = assocGet l k' := by
  induction l with
  | nil => simp [assocGet, assocSet, h]
  | cons hd tl ih =>
    obtain ⟨k0, v0⟩ := hd
    by_cases h0 : k0 = k
    · subst h0
      simp [assocGet, assocSet, h]
    · simp [assocGet, assocSet, h0, ih]

theorem updateAt_length {α : Type} (f : α → α) (n : ℕ) (l : List α) :
    (updateAt f n l).length = l.length := by
  induction l generalizing n with
  | nil => cases n <;> rfl
  | cons x xs ih =>
    cases n with
    | zero => rfl
    | succ m => simp [updateAt, ih]

theorem updateAt_get {α : Type} (f : α → α) (n : ℕ) (l : List α) (i : ℕ) :
    (updateAt f n l).get? i = if i = n then (l.get? i).map f else l.get? i := by
  induction l generalizing n i with
  | nil => cases n <;> simp [updateAt]
  | cons x xs ih =>
    cases n with
    | zero =>
      cases i with
      | zero => simp [updateAt]
      | succ j => simp [updateAt, Nat.succ_ne_zero]
    | succ m =>
      cases i with
      | zero => simp [updateAt, (Nat.succ_ne_zero m).symm]
      | succ j =>
        simp only [updateAt, List.get?_cons_succ, ih, Nat.succ_inj]

/-! ## `exponentialBackoff` (src/utils.ts)

`export function exponentialBackoff(attempt, base, cap) {
   return Math.min(base * 2 ** attempt, cap)
 }` -/

/-- `exponentialBackoff` from src/utils.ts: `Math.min(base * 2 ** attempt, cap)`. -/
def exponentialBackoff (attempt base cap : ℕ) : ℕ :=
  min (base * 2 ^ attempt) cap

/-! ## ComfyUIPool (src/core/pool.ts)

The pool keeps two equal-length arrays `sessionCounts` and `maxConcurrencies`
(both built by mapping over the same `nodes` argument), modelled here as one
list of pairs. The saturated branch of `acquire` leaves `best = -1`; the JS
statement `this.sessionCounts[best]!++` then writes `NaN` to the array
*property* `"-1"`, which is not an element at any instance index — that write
is modelled by the `negOneNaN` flag. `this.clients[best]` is `undefined` in
that branch, modelled by a lease whose `clientIdx` is `none`. -/

/-- One pooled instance: its live session count (`sessionCounts[i]`) and its
configured cap (`maxConcurrencies[i]`). -/
structure PoolInstance where
  sessionCount : ℕ
  maxConcurrency : ℕ
deriving DecidableEq, Repr

/-- The pool's mutable state. `negOneNaN` records whether the out-of-range
property `sessionCounts[-1]` has been written (always with `NaN`). -/
structure PoolState where
  instances : List PoolInstance
  negOneNaN : Bool
deriving DecidableEq, Repr

/-- The lease object returned by `acquire`. `clientIdx = none` models the
saturated branch, where `this.clients[best]` with `best = -1` is `undefined`. -/
structure ClientLease where
  clientIdx : Option ℕ
deriving DecidableEq, Repr

namespace ComfyUIPool

/-- The load ratio `this.sessionCounts[i]! / this.maxConcurrencies[i]!`,
as an exact rational (`mkRat` is definitionally the kernel-computable form of
`(count : ℚ) / (max : ℚ)`, see `loadRatio_eq_div`). -/
def loadRatio (inst : PoolInstance) : ℚ :=
  mkRat inst.sessionCount inst.maxConcurrency

theorem loadRatio_eq_div (inst : PoolInstance) :
    loadRatio inst = (inst.sessionCount : ℚ) / (inst.maxConcurrency : ℚ) := by
  simp [loadRatio, Rat.mkRat_eq_div]

/-- An instance that can still take a session: `sessionCounts[i] < maxConcurrencies[i]`. -/
def eligible (inst : PoolInstance) : Prop :=
  inst.sessionCount < inst.maxConcurrency

instance (inst : PoolInstance) : Decidable (eligible inst) :=
  inferInstanceAs (Decidable (_ < _))

/-- The selection loop of `acquire`: for i over all instances,
`if (ratio < bestRatio && sessionCounts[i] < maxConcurrencies[i]) { bestRatio = ratio; best = i }`.
Returns the final `(best, bestRatio)` pair; `i0` is the index of the first
list element. -/
def scanAux : List PoolInstance → ℕ → ℤ → ℚ → ℤ × ℚ
  | [], _, best, bestRatio => (best, bestRatio)
  | inst :: rest, i, best, bestRatio =>
    if loadRatio inst < bestRatio ∧ eligible inst then
      scanAux rest (i + 1) (i : ℤ) (loadRatio inst)
    else
      scanAux rest (i + 1) best bestRatio

/-- The index selected by `acquire` (`best`, starting from `-1` and `bestRatio = 1`). -/
def selectIndex (s : PoolState) : ℤ :=
  (scanAux s.instances 0 (-1) 1).1

/-- `ComfyUIPool.acquire`. The source's return type is `ClientLease | null`,
but the function body has no `return null` path: it always returns a lease
object (first component `some lease`). In the saturated branch the increment
targets `sessionCounts[-1]` (the `negOneNaN` flag) and the lease's client is
`undefined` (`clientIdx = none`). -/
def acquire (s : PoolState) : Option ClientLease × PoolState :=
  let best := selectIndex s
  if best < 0 then
    (some ⟨none⟩, { s with negOneNaN := true })
  else
    (some ⟨some best.toNat⟩,
      { s with instances := (updateAt
          (fun inst => { inst with sessionCount := inst.sessionCount + 1 })
          best.toNat s.instances) })

/-- The `release` callback of a lease:
`this.sessionCounts[best]! = Math.max(0, this.sessionCounts[best]! - 1)`.
Over naturals `Math.max(0, c - 1)` is truncated subtraction. A lease from the
saturated branch (`clientIdx = none`) rewrites `sessionCounts[-1]` (still `NaN`). -/
def releaseLease (idx : Option ℕ) (s : PoolState) : PoolState :=
  match idx with
  | some i =>
    { s with instances := (updateAt
        (fun inst => { inst with sessionCount := inst.sessionCount - 1 })
        i s.instances) }
  | none => { s with negOneNaN := true }

/-- The session object handed out by `createSession` (`ComfyUISession`
construction: `closed = false`, holding the lease). -/
structure SessionObj where
  closed : Bool
  leaseIdx : Option ℕ
deriving DecidableEq, Repr

/-- `ComfyUIPool.createSession`: acquires a lease and returns `null` only when
the lease is `null` (`if (!lease) return null`) — which the `acquire` body
never produces. -/
def createSession (s : PoolState) : Option SessionObj × PoolState :=
  match acquire s with
  | (none, s') => (none, s')
  | (some lease, s') => (some ⟨false, lease.clientIdx⟩, s')

/-- Whether `ComfyUIPool.withSession` raises its
"No available clients in pool" error: it does so exactly when `createSession`
returned `null`. -/
def withSessionThrowsSaturation (s : PoolState) : Bool :=
  match createSession s with
  | (none, _) => true
  | (some _, _) => false

theorem loadRatio_lt_one {inst : PoolInstance} (h : eligible inst) : loadRatio inst < 1 := by
  rw [loadRatio_eq_div]
  have h' : inst.sessionCount < inst.maxConcurrency := h
  have hm : (0 : ℚ) < (inst.maxConcurrency : ℚ) := by
    exact_mod_cast lt_of_le_of_lt (Nat.zero_le _) h'
  rw [div_lt_one hm]
  exact_mod_cast h'

/-- Full characterization of the selection loop: the final `(best, bestRatio)`
is either the initial accumulator (nothing picked) or an eligible element of
the scanned list with its ratio, in which case the ratio strictly improved; the
final ratio is a lower bound on every eligible element's ratio; and every
eligible element strictly before the selected index has a strictly larger
ratio (first-encountered tie-breaking). -/
theorem scanAux_spec (l : List PoolInstance) :
    ∀ (i0 : ℕ) (best : ℤ) (br : ℚ), best < (i0 : ℤ) →
    (((scanAux l i0 best br).1 = best ∧ (scanAux l i0 best br).2 = br) ∨
      ((scanAux l i0 best br).2 < br ∧ ∃ k, ∃ hk : k < l.length,
        (scanAux l i0 best br).1 = (i0 : ℤ) + k ∧ eligible (l.get ⟨k, hk⟩) ∧
        (scanAux l i0 best br).2 = loadRatio (l.get ⟨k, hk⟩))) ∧
    (∀ k (hk : k < l.length), eligible (l.get ⟨k, hk⟩) →
        (scanAux l i0 best br).2 ≤ loadRatio (l.get ⟨k, hk⟩)) ∧
    (∀ k (hk : k < l.length), eligible (l.get ⟨k, hk⟩) →
        (i0 : ℤ) + k < (scanAux l i0 best br).1 →
        (scanAux l i0 best br).2 < loadRatio (l.get ⟨k, hk⟩)) := by
  induction l with
  | nil =>
    intro i0 best br hlt
    refine ⟨Or.inl ⟨rfl, rfl⟩, ?_, ?_⟩ <;> intro k hk <;> exact absurd hk (by simp)
  | cons inst rest ih =>
    intro i0 best br hlt
    by_cases hc : loadRatio inst < br ∧ eligible inst
    · have heq : scanAux (inst :: rest) i0 best br =
          scanAux rest (i0 + 1) (i0 : ℤ) (loadRatio inst) := by
        simp [scanAux, hc]
      have hIH := ih (i0 + 1) (i0 : ℤ) (loadRatio inst) (by push_cast; omega)
      obtain ⟨h1, h2, h3⟩ := hIH
      rw [heq]
      refine ⟨?_, ?_, ?_⟩
      · rcases h1 with ⟨hb, hr⟩ | ⟨hr, k, hk, hb, hel, hrr⟩
        · exact Or.inr ⟨by rw [hr]; exact hc.1, 0, by simp,
            by rw [hb]; push_cast; ring, by simpa using hc.2, by simpa using hr⟩
        · refine Or.inr ⟨lt_trans hr hc.1, k + 1, by simpa using Nat.succ_lt_succ hk, ?_, ?_, ?_⟩
          · rw [hb]; push_cast; ring
          · simpa using hel
          · simpa using hrr
      · intro k hk hel
        cases k with
        | zero =>
          calc (scanAux rest (i0 + 1) (i0 : ℤ) (loadRatio inst)).2
              ≤ loadRatio inst := by
                rcases h1 with ⟨_, hr⟩ | ⟨hr, _⟩
                · rw [hr]
                · exact le_of_lt hr
            _ = loadRatio ((inst :: rest).get ⟨0, hk⟩) := by simp
        | succ j =>
          have := h2 j (by simpa using Nat.lt_of_succ_lt_succ hk) (by simpa using hel)
          simpa using this
      · intro k hk hel hklt
        cases k with
        | zero =>
          have h0 : (i0 : ℤ) < (scanAux rest (i0 + 1) (i0 : ℤ) (loadRatio inst)).1 := by
            simpa using hklt
          rcases h1 with ⟨hb, _⟩ | ⟨hr, _⟩
          · rw [hb] at h0; omega
          · calc (scanAux rest (i0 + 1) (i0 : ℤ) (loadRatio inst)).2
                < loadRatio inst := hr
              _ = loadRatio ((inst :: rest).get ⟨0, hk⟩) := by simp
        | succ j =>
          have := h3 j (by simpa using Nat.lt_of_succ_lt_succ hk) (by simpa using hel)
          have harith : ((i0 + 1 : ℕ) : ℤ) + j = (i0 : ℤ) + (j + 1 : ℕ) := by push_cast; ring
          rw [harith] at this
          have := this (by simpa using hklt)
          simpa using this
    · have heq : scanAux (inst :: rest) i0 best br = scanAux rest (i0 + 1) best br := by
        simp [scanAux, hc]
      have hIH := ih (i0 + 1) best br (by push_cast at hlt ⊢; omega)
      obtain ⟨h1, h2, h3⟩ := hIH
      rw [heq]
      refine ⟨?_, ?_, ?_⟩
      · rcases h1 with ⟨hb, hr⟩ | ⟨hr, k, hk, hb, hel, hrr⟩
        · exact Or.inl ⟨hb, hr⟩
        · refine Or.inr ⟨hr, k + 1, by simpa using Nat.succ_lt_succ hk, ?_, ?_, ?_⟩
          · rw [hb]; push_cast; ring
          · simpa using hel
          · simpa using hrr
      · intro k hk hel
        cases k with
        | zero =>
          have hel0 : eligible inst := by simpa using hel
          have hbr : br ≤ loadRatio inst := by
            by_contra hno
            exact hc ⟨lt_of_not_le hno, hel0⟩
          have hle : (scanAux rest (i0 + 1) best br).2 ≤ br := by
            rcases h1 with ⟨_, hr⟩ | ⟨hr, _⟩
            · rw [hr]
            · exact le_of_lt hr
          calc (scanAux rest (i0 + 1) best br).2 ≤ br := hle
            _ ≤ loadRatio inst := hbr
            _ = loadRatio ((inst :: rest).get ⟨0, hk⟩) := by simp
        | succ j =>
          have := h2 j (by simpa using Nat.lt_of_succ_lt_succ hk) (by simpa using hel)
          simpa using this
      · intro k hk hel hklt
        cases k with
        | zero =>
          have hel0 : eligible inst := by simpa using hel
          have hbr : br ≤ loadRatio inst := by
            by_contra hno
            exact hc ⟨lt_of_not_le hno, hel0⟩
          have h0 : (i0 : ℤ) < (scanAux rest (i0 + 1) best br).1 := by simpa using hklt
          rcases h1 with ⟨hb, _⟩ | ⟨hr, _⟩
          · rw [hb] at h0; omega
          · calc (scanAux rest (i0 + 1) best br).2 < br := hr
              _ ≤ loadRatio inst := hbr
              _ = loadRatio ((inst :: rest).get ⟨0, hk⟩) := by simp
        | succ j =>
          have := h3 j (by simpa using Nat.lt_of_succ_lt_succ hk) (by simpa using hel)
          have harith : ((i0 + 1 : ℕ) : ℤ) + j = (i0 : ℤ) + (j + 1 : ℕ) := by push_cast; ring
          rw [harith] at this
          have := this (by simpa using hklt)
          simpa using this

end ComfyUIPool

/-- One pool operation: an `acquire()` call, or invoking the `release`
callback of some lease (`releaseOp none` is the release of a lease produced by
the saturated branch, whose captured `best` is `-1`). -/
inductive PoolOp where
  | acquireOp
  | releaseOp (idx : Option ℕ)

/-- Apply one pool operation to the pool state. -/
def stepOp (s : PoolState) : PoolOp → PoolState
  | PoolOp.acquireOp => (ComfyUIPool.acquire s).2
  | PoolOp.releaseOp idx => ComfyUIPool.releaseLease idx s

/-- Run a sequence of acquire/release operations. -/
def runOps (s : PoolState) : List PoolOp → PoolState :=
  List.foldl stepOp s

/-- The pool invariant: `currentSessions[i] <= maxConcurrency[i]` for every
instance. -/
def PoolInv (s : PoolState) : Prop :=
  ∀ inst ∈ s.instances, inst.sessionCount ≤ inst.maxConcurrency

instance (s : PoolState) : Decidable (PoolInv s) :=
  inferInstanceAs (Decidable (∀ inst ∈ s.instances, _ ≤ _))

theorem forall_mem_iff_get {α : Type} (l : List α) (P : α → Prop) :
    (∀ x ∈ l, P x) ↔ ∀ i x, l.get? i = some x → P x := by
  constructor
  · intro h i x hx
    exact h x (List.get?_mem hx)
  · intro h x hx
    obtain ⟨i, hi⟩ := List.mem_iff_get?.mp hx
    exact h i x hi

theorem acquire_neg_eq {s : PoolState} (h : ComfyUIPool.selectIndex s < 0) :
    ComfyUIPool.acquire s = (some ⟨none⟩, { s with negOneNaN := true }) := by
  simp only [ComfyUIPool.acquire]
  rw [if_pos h]

theorem acquire_pos_eq {s : PoolState} {k : ℕ}
    (hsel : ComfyUIPool.selectIndex s = (k : ℤ)) :
    ComfyUIPool.acquire s = (some ⟨some k⟩,
      { s with instances := (updateAt
          (fun inst => { inst with sessionCount := inst.sessionCount + 1 })
          k s.instances) }) := by
  simp only [ComfyUIPool.acquire, hsel]
  rw [if_neg (by omega)]
  simp

theorem acquire_preserves_inv {s : PoolState} (h : PoolInv s) :
    PoolInv (ComfyUIPool.acquire s).2 := by
  obtain ⟨h1, _, _⟩ := ComfyUIPool.scanAux_spec s.instances 0 (-1) 1 (by norm_num)
  by_cases hneg : ComfyUIPool.selectIndex s < 0
  · rw [acquire_neg_eq hneg]
    simpa [PoolInv] using h
  · rcases h1 with ⟨hb, _⟩ | ⟨_, k, hk, hb, hel, _⟩
    · exact absurd (by rw [ComfyUIPool.selectIndex, hb]; norm_num) hneg
    · have hsel : ComfyUIPool.selectIndex s = (k : ℤ) := by
        rw [ComfyUIPool.selectIndex, hb]; push_cast; ring
      rw [PoolInv, forall_mem_iff_get]
      intro i inst hi
      rw [acquire_pos_eq hsel] at hi
      simp only at hi
      rw [updateAt_get] at hi
      by_cases hik : i = k
      · rw [if_pos hik, hik, List.get?_eq_get hk] at hi
        simp only [Option.map] at hi
        have hel' : (s.instances.get ⟨k, hk⟩).sessionCount <
            (s.instances.get ⟨k, hk⟩).maxConcurrency := hel
        have hinst := Option.some.inj hi
        subst hinst
        simpa using hel'
      · rw [if_neg hik] at hi
        exact h inst (List.get?_mem hi)

theorem release_preserves_inv {s : PoolState} (idx : Option ℕ) (h : PoolInv s) :
    PoolInv (ComfyUIPool.releaseLease idx s) := by
  match idx with
  | none => simpa [ComfyUIPool.releaseLease, PoolInv] using h
  | some i =>
    rw [PoolInv, forall_mem_iff_get]
    intro j inst hj
    simp only [ComfyUIPool.releaseLease] at hj
    rw [updateAt_get] at hj
    by_cases hji : j = i
    · rw [if_pos hji] at hj
      cases hx : s.instances.get? j with
      | none => rw [hx] at hj; simp at hj
      | some inst0 =>
        rw [hx] at hj
        simp only [Option.map] at hj
        have := h inst0 (List.get?_mem hx)
        have hinst := Option.some.inj hj
        subst hinst
        simp only
        omega
    · rw [if_neg hji] at hj
      exact h inst (List.get?_mem hj)

/-- C2: For every sequence of `acquire`/`release` operations the per-instance
invariant `currentSessions[i] <= maxConcurrency[i]` is preserved at every
point in time, and invoking a lease's `release` on an instance whose count is
already zero leaves the count at zero (`Math.max(0, c - 1)` never goes
negative). -/
theorem pool_invariant_all_ops (ops : List PoolOp) (s : PoolState) (h : PoolInv s) :
    PoolInv (runOps s ops) ∧
    (∀ (s' : PoolState) (i : ℕ) (inst : PoolInstance),
      s'.instances.get? i = some inst → inst.sessionCount = 0 →
      Option.map PoolInstance.sessionCount
        ((ComfyUIPool.releaseLease (some i) s').instances.get? i) = some 0) := by
  constructor
  · induction ops generalizing s with
    | nil => exact h
    | cons op rest ih =>
      rw [runOps, List.foldl_cons]
      apply ih
      cases op with
      | acquireOp => exact acquire_preserves_inv h
      | releaseOp idx => exact release_preserves_inv idx h
  · intro s' i inst hi h0
    simp only [ComfyUIPool.releaseLease]
    rw [updateAt_get, if_pos rfl, hi]
    simp [h0]

/-- Witness for C2: a concrete run (two acquires, a release, an over-release
at zero) on a two-instance pool preserves the invariant. -/
theorem pool_invariant_all_ops_witness :
    PoolInv (runOps ⟨[⟨0, 1⟩, ⟨0, 2⟩], false⟩
      [PoolOp.acquireOp, PoolOp.acquireOp, PoolOp.releaseOp (some 0),
        PoolOp.releaseOp (some 0), PoolOp.acquireOp]) ∧
    Option.map PoolInstance.sessionCount
      ((ComfyUIPool.releaseLease (some 0) ⟨[⟨0, 1⟩], false⟩).instances.get? 0) = some 0 :=
  ⟨(pool_invariant_all_ops _ ⟨[⟨0, 1⟩, ⟨0, 2⟩], false⟩ (by decide)).1,
    (pool_invariant_all_ops [] ⟨[⟨0, 1⟩], false⟩ (by decide)).2 ⟨[⟨0, 1⟩], false⟩ 0 ⟨0, 1⟩
      (by decide) (by decide)⟩

/-- C5: Whenever some instance is under its cap, `acquire` selects the
under-cap instance with the lowest load ratio `current/max`, breaking ties by
lowest index, increments exactly that instance's session count, and touches
nothing else. -/
theorem acquire_selects_least_loaded (s : PoolState)
    (hex : ∃ k, ∃ hk : k < s.instances.length,
      ComfyUIPool.eligible (s.instances.get ⟨k, hk⟩)) :
    ∃ r, ∃ hr : r < s.instances.length,
      (ComfyUIPool.acquire s).1 = some ⟨some r⟩ ∧
      ComfyUIPool.eligible (s.instances.get ⟨r, hr⟩) ∧
      (∀ j (hj : j < s.instances.length), ComfyUIPool.eligible (s.instances.get ⟨j, hj⟩) →
        ComfyUIPool.loadRatio (s.instances.get ⟨r, hr⟩) ≤
          ComfyUIPool.loadRatio (s.instances.get ⟨j, hj⟩)) ∧
      (∀ j (hj : j < s.instances.length), j < r →
        ComfyUIPool.eligible (s.instances.get ⟨j, hj⟩) →
        ComfyUIPool.loadRatio (s.instances.get ⟨r, hr⟩) <
          ComfyUIPool.loadRatio (s.instances.get ⟨j, hj⟩)) ∧
      (ComfyUIPool.acquire s).2.instances = (updateAt
        (fun inst => { inst with sessionCount := inst.sessionCount + 1 })
        r s.instances) ∧
      (ComfyUIPool.acquire s).2.negOneNaN = s.negOneNaN := by
  obtain ⟨h1, h2, h3⟩ := ComfyUIPool.scanAux_spec s.instances 0 (-1) 1 (by norm_num)
  rcases h1 with ⟨hb, hr⟩ | ⟨_, k, hk, hb, hel, hrr⟩
  · obtain ⟨k, hk, hke⟩ := hex
    have hle := h2 k hk hke
    rw [hr] at hle
    exact absurd (lt_of_le_of_lt hle (ComfyUIPool.loadRatio_lt_one hke)) (lt_irrefl _)
  · have hsel : ComfyUIPool.selectIndex s = (k : ℤ) := by
      rw [ComfyUIPool.selectIndex, hb]; push_cast; ring
    refine ⟨k, hk, ?_, hel, ?_, ?_, ?_, ?_⟩
    · rw [acquire_pos_eq hsel]
    · intro j hj hje
      have := h2 j hj hje
      rw [hrr] at this
      exact this
    · intro j hj hjr hje
      have := h3 j hj hje (by rw [hb]; push_cast; omega)
      rw [hrr] at this
      exact this
    · rw [acquire_pos_eq hsel]
    · rw [acquire_pos_eq hsel]

/-- Witness for C5, the spec's load-balancing example: instances A(max=2,
current=0) and B(max=2, current=1) — `acquire` selects A (index 0). -/
theorem acquire_selects_least_loaded_witness :
    ((ComfyUIPool.acquire ⟨[⟨0, 2⟩, ⟨1, 2⟩], false⟩).1 = some ⟨some 0⟩) ∧
    (∃ r, ∃ hr : r < ([⟨0, 2⟩, ⟨1, 2⟩] : List PoolInstance).length,
      (ComfyUIPool.acquire ⟨[⟨0, 2⟩, ⟨1, 2⟩], false⟩).1 = some ⟨some r⟩ ∧
      ComfyUIPool.eligible (([⟨0, 2⟩, ⟨1, 2⟩] : List PoolInstance).get ⟨r, hr⟩) ∧
      (∀ j (hj : j < ([⟨0, 2⟩, ⟨1, 2⟩] : List PoolInstance).length),
        ComfyUIPool.eligible (([⟨0, 2⟩, ⟨1, 2⟩] : List PoolInstance).get ⟨j, hj⟩) →
        ComfyUIPool.loadRatio (([⟨0, 2⟩, ⟨1, 2⟩] : List PoolInstance).get ⟨r, hr⟩) ≤
          ComfyUIPool.loadRatio (([⟨0, 2⟩, ⟨1, 2⟩] : List PoolInstance).get ⟨j, hj⟩)) ∧
      (∀ j (hj : j < ([⟨0, 2⟩, ⟨1, 2⟩] : List PoolInstance).length), j < r →
        ComfyUIPool.eligible (([⟨0, 2⟩, ⟨1, 2⟩] : List PoolInstance).get ⟨j, hj⟩) →
        ComfyUIPool.loadRatio (([⟨0, 2⟩, ⟨1, 2⟩] : List PoolInstance).get ⟨r, hr⟩) <
          ComfyUIPool.loadRatio (([⟨0, 2⟩, ⟨1, 2⟩] : List PoolInstance).get ⟨j, hj⟩)) ∧
      (ComfyUIPool.acquire ⟨[⟨0, 2⟩, ⟨1, 2⟩], false⟩).2.instances = (updateAt
        (fun inst => { inst with sessionCount := inst.sessionCount + 1 })
        r [⟨0, 2⟩, ⟨1, 2⟩]) ∧
      (ComfyUIPool.acquire ⟨[⟨0, 2⟩, ⟨1, 2⟩], false⟩).2.negOneNaN = false) :=
  ⟨by decide, acquire_selects_least_loaded ⟨[⟨0, 2⟩, ⟨1, 2⟩], false⟩ ⟨0, by decide, by decide⟩⟩

/-- C1 (code bug): with a single saturated instance (max=1, current=1),
`acquire` does NOT yield "no lease" — the method's body has no `return null`
path, so it returns a lease whose client is `clients[-1] = undefined`
(`clientIdx = none`) and corrupts `sessionCounts[-1]` with `NaN`
(`negOneNaN = true`); consequently `createSession` returns a (broken) session
instead of the documented `null`, and `withSession` does not raise its
pool-saturation error. This contradicts the source's own doc comments and
declared return type `ClientLease | null`. -/
theorem saturated_pool_yields_defective_lease_eval :
    ComfyUIPool.acquire ⟨[⟨1, 1⟩], false⟩ = (some ⟨none⟩, ⟨[⟨1, 1⟩], true⟩) ∧
    (ComfyUIPool.acquire ⟨[⟨1, 1⟩], false⟩).1 ≠ none ∧
    ComfyUIPool.createSession ⟨[⟨1, 1⟩], false⟩ = (some ⟨false, none⟩, ⟨[⟨1, 1⟩], true⟩) ∧
    (ComfyUIPool.createSession ⟨[⟨1, 1⟩], false⟩).1 ≠ none ∧
    ComfyUIPool.withSessionThrowsSaturation ⟨[⟨1, 1⟩], false⟩ = false := by
  refine ⟨by decide, by decide, by decide, by decide, by decide⟩

/-! ## ComfyUISession (src/core/session.ts)

A session wraps one lease (`ComfyUIPool.SessionObj.leaseIdx`) and a `closed` flag. The
delegated client calls (`this.lease.client.run(...)` etc.) are abstracted as
opaque actions: the model only expresses whether they are performed. -/

namespace ComfyUISession

/-- `assertOpen`: `if (this.closed) throw new Error('ComfyUISession already closed')`. -/
def assertOpen (closed : Bool) : Except String Unit :=
  if closed then Except.error "ComfyUISession already closed" else Except.ok ()

/-- `close()`: `if (!this.closed) { this.closed = true; this.lease.release() }`. -/
def close (sess : ComfyUIPool.SessionObj) (pool : PoolState) : ComfyUIPool.SessionObj × PoolState :=
  if sess.closed then (sess, pool)
  else ({ sess with closed := true }, ComfyUIPool.releaseLease sess.leaseIdx pool)

/-- `run(workflow, options)`: `assertOpen` then the delegated client call
(abstracted as `clientRun`). -/
def run {α : Type} (sess : ComfyUIPool.SessionObj) (clientRun : Unit → α) : Except String α :=
  match assertOpen sess.closed with
  | Except.error e => Except.error e
  | Except.ok _ => Except.ok (clientRun ())

/-- `queue(workflow, options)`: `assertOpen` then the delegated client call. -/
def queue {α : Type} (sess : ComfyUIPool.SessionObj) (clientQueue : Unit → α) : Except String α :=
  match assertOpen sess.closed with
  | Except.error e => Except.error e
  | Except.ok _ => Except.ok (clientQueue ())

/-- `uploadFile(data, options)`: `assertOpen` then the delegated client call. -/
def uploadFile {α : Type} (sess : ComfyUIPool.SessionObj) (clientUpload : Unit → α) : Except String α :=
  match assertOpen sess.closed with
  | Except.error e => Except.error e
  | Except.ok _ => Except.ok (clientUpload ())

/-- `getHistory(promptId)`: `assertOpen` then the delegated client call. -/
def getHistory {α : Type} (sess : ComfyUIPool.SessionObj) (clientHistory : Unit → α) : Except String α :=
  match assertOpen sess.closed with
  | Except.error e => Except.error e
  | Except.ok _ => Except.ok (clientHistory ())

end ComfyUISession

/-- C7: `close()` is idempotent — the first call on an open session releases
the lease exactly once (one `releaseLease` application) and marks the session
closed; a second `close` changes nothing (no further release); and after a
`close` every one of `run`/`queue`/`uploadFile`/`getHistory` fails with the
"session closed" error without performing the delegated operation. -/
theorem session_close_idempotent_and_gates (sess : ComfyUIPool.SessionObj) (pool : PoolState)
    {α β γ δ : Type} (a1 : Unit → α) (a2 : Unit → β) (a3 : Unit → γ) (a4 : Unit → δ) :
    (ComfyUISession.close (ComfyUISession.close sess pool).1
        (ComfyUISession.close sess pool).2 = ComfyUISession.close sess pool) ∧
    (sess.closed = false →
      ComfyUISession.close sess pool =
        ({ sess with closed := true }, ComfyUIPool.releaseLease sess.leaseIdx pool)) ∧
    ((ComfyUISession.close sess pool).1.closed = true) ∧
    (ComfyUISession.run (ComfyUISession.close sess pool).1 a1 =
      Except.error "ComfyUISession already closed") ∧
    (ComfyUISession.queue (ComfyUISession.close sess pool).1 a2 =
      Except.error "ComfyUISession already closed") ∧
    (ComfyUISession.uploadFile (ComfyUISession.close sess pool).1 a3 =
      Except.error "ComfyUISession already closed") ∧
    (ComfyUISession.getHistory (ComfyUISession.close sess pool).1 a4 =
      Except.error "ComfyUISession already closed") := by
  have hclosed : (ComfyUISession.close sess pool).1.closed = true := by
    by_cases h : sess.closed <;> simp [ComfyUISession.close, h]
  refine ⟨?_, ?_, hclosed, ?_, ?_, ?_, ?_⟩
  · by_cases h : sess.closed <;> simp [ComfyUISession.close, h]
  · intro h
    simp [ComfyUISession.close, h]
  · simp [ComfyUISession.run, ComfyUISession.assertOpen, hclosed]
  · simp [ComfyUISession.queue, ComfyUISession.assertOpen, hclosed]
  · simp [ComfyUISession.uploadFile, ComfyUISession.assertOpen, hclosed]
  · simp [ComfyUISession.getHistory, ComfyUISession.assertOpen, hclosed]

/-- Witness for C7 at a concrete open session holding the lease on
instance 0 of a one-instance pool. -/
theorem session_close_idempotent_and_gates_witness :
    (ComfyUIPool.SessionObj.mk false (some 0)).closed = false ∧
    (ComfyUISession.close (ComfyUISession.close ⟨false, some 0⟩ ⟨[⟨1, 1⟩], false⟩).1
        (ComfyUISession.close ⟨false, some 0⟩ ⟨[⟨1, 1⟩], false⟩).2 =
      ComfyUISession.close ⟨false, some 0⟩ ⟨[⟨1, 1⟩], false⟩) ∧
    (ComfyUISession.close ⟨false, some 0⟩ ⟨[⟨1, 1⟩], false⟩ =
      (⟨true, some 0⟩, ComfyUIPool.releaseLease (some 0) ⟨[⟨1, 1⟩], false⟩)) ∧
    (ComfyUISession.run (ComfyUISession.close ⟨false, some 0⟩ ⟨[⟨1, 1⟩], false⟩).1
        (fun _ => (0 : ℕ)) = Except.error "ComfyUISession already closed") := by
  have h := session_close_idempotent_and_gates ⟨false, some 0⟩ ⟨[⟨1, 1⟩], false⟩
    (fun _ => (0 : ℕ)) (fun _ => (0 : ℕ)) (fun _ => (0 : ℕ)) (fun _ => (0 : ℕ))
  exact ⟨rfl, h.1, h.2.1 rfl, h.2.2.2.1⟩

/-- C8 (counterexample): "attempt 0 yields base" fails for all base/cap:
`exponentialBackoff(0, 2, 1) = min(2, 1) = 1 ≠ 2` — when `base > cap` the
very first delay is already clamped to `cap`. -/
theorem exponentialBackoff_attempt0_ne_base :
    exponentialBackoff 0 2 1 = 1 ∧ exponentialBackoff 0 2 1 ≠ 2 := by
  exact ⟨by decide, by decide⟩

/-- C8 (amended): `exponentialBackoff(attempt, base, cap) = min(base * 2 ^
attempt, cap)` for all arguments; attempt 0 yields `base` provided
`base ≤ cap`; the result is monotonically non-decreasing in `attempt` and
never exceeds `cap`; and base=2000, cap=15000 yields 2000, 4000, 8000, 15000
for attempts 0..3. -/
theorem exponentialBackoff_spec (attempt base cap : ℕ) (hbc : base ≤ cap) :
    exponentialBackoff attempt base cap = min (base * 2 ^ attempt) cap ∧
    exponentialBackoff 0 base cap = base ∧
    (∀ a b : ℕ, a ≤ b →
      exponentialBackoff a base cap ≤ exponentialBackoff b base cap) ∧
    exponentialBackoff attempt base cap ≤ cap ∧
    exponentialBackoff 0 2000 15000 = 2000 ∧ exponentialBackoff 1 2000 15000 = 4000 ∧
    exponentialBackoff 2 2000 15000 = 8000 ∧ exponentialBackoff 3 2000 15000 = 15000 := by
  refine ⟨rfl, ?_, ?_, ?_, by decide, by decide, by decide, by decide⟩
  · simp [exponentialBackoff, Nat.min_eq_left hbc]
  · intro a b hab
    exact min_le_min
      (Nat.mul_le_mul_left _ (Nat.pow_le_pow_right (by norm_num) hab)) le_rfl
  · exact min_le_right _ _

/-- Witness for C8 at attempt=3, base=2000, cap=15000. -/
theorem exponentialBackoff_spec_witness :
    2000 ≤ 15000 ∧ exponentialBackoff 3 2000 15000 = min (2000 * 2 ^ 3) 15000 :=
  ⟨by decide, (exponentialBackoff_spec 3 2000 15000 (by decide)).1⟩

/-! ## ComfyUIClient — history fetch and poll loop (src/core/client.ts)

`getHistory` and `pollUntilDone` are modelled over an abstract transport: the
server's reply to the n-th history fetch is `fetchSeq n` (the transport call
itself succeeding; a transport failure simply propagates in the source and is
outside these claims). A thrown JS `Error` is an `Except.error` carrying the
message string. `JSON.stringify`'s character escaping is not modelled: each
message string is emitted between plain quotes. -/

/-- The `status` object of a history record. -/
structure HStatus where
  status_str : String
  completed : Bool
  messages : Option (List String)
deriving DecidableEq, Repr

/-- One per-prompt history record; `α` abstracts the per-node output values.
`outputs` is optional: the record may not carry outputs yet. -/
structure HRecord (α : Type) where
  status : HStatus
  outputs : Option (List (String × α))
deriving DecidableEq, Repr

/-- The `/history/{promptId}` response: a map from prompt id to record. -/
def Histories (α : Type) : Type := List (String × HRecord α)

/-- `JSON.stringify` of an array of message strings (naive quoting). -/
def quoteJoin : List String → String
  | [] => ""
  | [m] => "\"" ++ m ++ "\""
  | m :: rest => "\"" ++ m ++ "\"" ++ "," ++ quoteJoin rest

/-- `JSON.stringify(rec.status.messages || '{}')`: a JS array (even an empty
one) is truthy, so a present message list is stringified as an array; an
absent one falls back to stringifying the literal string `'\x7b\x7d'`. -/
def stringifyMessages : Option (List String) → String
  | some ms => "[" ++ quoteJoin ms ++ "]"
  | none => "\"\x7b\x7d\""

namespace ComfyUIClient

/-- `getHistory(promptId)`: fetch the history map, and if the record for
`promptId` exists with `status.status_str === 'error'`, throw
``Prompt ${promptId} failed: ${JSON.stringify(rec.status.messages || '{}')}``;
otherwise return the full map (even when not yet completed). -/
def getHistory {α : Type} (histories : Histories α) (promptId : String) :
    Except String (Histories α) :=
  match assocGet histories promptId with
  | some record =>
    if record.status.status_str = "error" then
      Except.error ("Prompt " ++ promptId ++ " failed: " ++
        stringifyMessages record.status.messages)
    else Except.ok histories
  | none => Except.ok histories

/-- The poll loop's completion test on a fetched map:
`rec?.status.completed && rec.outputs && Object.keys(rec.outputs).length`. -/
def completedOutputs {α : Type} (hs : Histories α) (promptId : String) :
    Option (List (String × α)) :=
  match assocGet hs promptId with
  | some record =>
    match record.outputs with
    | some outs => if record.status.completed && !outs.isEmpty then some outs else none
    | none => none
  | none => none

/-- Observable outcome of running the poll loop with bounded fuel: the delays
slept (in order, `waits[n]` right before history fetch number n), the number
of history fetches performed, and the outcome (`none` when the fuel ran out
with the loop still going — the source loop is `while (true)`). -/
structure PollOut (α : Type) where
  waits : List ℕ
  fetches : ℕ
  result : Option (Except String (List (String × α)))
deriving Repr

/-- `pollUntilDone(promptId)`: each iteration computes
`waitMs = exponentialBackoff(attempt, this.pollCfg.interval, this.pollCfg.backoffCap)`,
sleeps, increments `attempt`, calls `getHistory` (whose thrown error aborts
the loop and propagates out of `run`), and returns the record's raw outputs
once `completed` is set with a non-empty outputs tree. -/
def pollUntilDone {α : Type} (fetchSeq : ℕ → Histories α) (promptId : String)
    (interval cap : ℕ) : ℕ → ℕ → PollOut α
  | 0, _ => ⟨[], 0, none⟩
  | fuel + 1, attempt =>
    let w := exponentialBackoff attempt interval cap
    match getHistory (fetchSeq attempt) promptId with
    | Except.error e => ⟨[w], 1, some (Except.error e)⟩
    | Except.ok hs =>
      match completedOutputs hs promptId with
      | some outs => ⟨[w], 1, some (Except.ok outs)⟩
      | none =>
        let r := pollUntilDone fetchSeq promptId interval cap fuel (attempt + 1)
        ⟨w :: r.waits, r.fetches + 1, r.result⟩

/-- The client's resolved poll configuration (constructor field `pollCfg`). -/
structure PollCfg where
  interval : ℕ
  backoffBase : ℕ
  backoffCap : ℕ
deriving DecidableEq, Repr

/-- The optional `poll` options accepted by the constructor. -/
structure PollOptions where
  interval : Option ℕ
  backoffBase : Option ℕ
  backoffCap : Option ℕ
deriving DecidableEq, Repr

/-- Constructor defaulting: `interval ?? 4000`, `backoffBase ?? 2000`,
`backoffCap ?? 15000`. -/
def resolvePollCfg (o : Option PollOptions) : PollCfg :=
  { interval := (o.bind PollOptions.interval).getD 4000,
    backoffBase := (o.bind PollOptions.backoffBase).getD 2000,
    backoffCap := (o.bind PollOptions.backoffCap).getD 15000 }

/-- The poll loop as `run` invokes it: the backoff base is
`this.pollCfg.interval` and the cap is `this.pollCfg.backoffCap`;
`this.pollCfg.backoffBase` is read nowhere in the loop. -/
def pollWithCfg {α : Type} (cfg : PollCfg) (fetchSeq : ℕ → Histories α)
    (promptId : String) (fuel : ℕ) : PollOut α :=
  pollUntilDone fetchSeq promptId cfg.interval cfg.backoffCap fuel 0

end ComfyUIClient

/-- `needle` occurs as a contiguous substring of `hay`. -/
def SubstrOf (needle hay : String) : Prop :=
  ∃ a b : List Char, hay.data = a ++ needle.data ++ b

theorem string_data_append (s t : String) : (s ++ t).data = s.data ++ t.data :=
  rfl

theorem substr_quoteJoin : ∀ (ms : List String) (m : String), m ∈ ms →
    ∃ a b : List Char, (quoteJoin ms).data = a ++ m.data ++ b := by
  intro ms
  induction ms with
  | nil =>
    intro m hm
    simp at hm
  | cons x rest ih =>
    intro m hm
    cases rest with
    | nil =>
      have hx : m = x := by simpa using hm
      subst hx
      refine ⟨"\"".data, "\"".data, ?_⟩
      simp [quoteJoin, string_data_append]
    | cons y rest' =>
      rcases List.mem_cons.mp hm with hmx | hmrest
      · subst hmx
        refine ⟨"\"".data, ("\"" ++ "," ++ quoteJoin (y :: rest')).data, ?_⟩
        simp [quoteJoin, string_data_append, List.append_assoc]
      · obtain ⟨a, b, hab⟩ := ih m hmrest
        refine ⟨("\"" ++ x ++ "\"" ++ ",").data ++ a, b, ?_⟩
        simp [quoteJoin, string_data_append, hab, List.append_assoc]

/-- C6: Given a successful transport call, `getHistory` fails exactly when the
fetched record's status is `"error"`; the thrown error's text contains the
prompt id and every server-provided message; in every other case the full
per-prompt history map is returned unchanged (even when not yet completed);
and when a poll iteration's `getHistory` throws, the poll loop performs that
one fetch and stops — `run` sees the failure with no further polling. -/
theorem getHistory_error_semantics {α : Type}
    (hs : Histories α) (promptId : String) (record : HRecord α)
    (fetchSeq : ℕ → Histories α) (interval cap fuel attempt : ℕ) (e : String) :
    ((∃ err, ComfyUIClient.getHistory hs promptId = Except.error err) ↔
      (∃ r, assocGet hs promptId = some r ∧ r.status.status_str = "error")) ∧
    (assocGet hs promptId = some record → record.status.status_str = "error" →
      ∃ err, ComfyUIClient.getHistory hs promptId = Except.error err ∧
        SubstrOf promptId err ∧
        ∀ m ∈ record.status.messages.getD [], SubstrOf m err) ∧
    (¬ (∃ r, assocGet hs promptId = some r ∧ r.status.status_str = "error") →
      ComfyUIClient.getHistory hs promptId = Except.ok hs) ∧
    (ComfyUIClient.getHistory (fetchSeq attempt) promptId = Except.error e →
      ComfyUIClient.pollUntilDone fetchSeq promptId interval cap (fuel + 1) attempt =
        ⟨[exponentialBackoff attempt interval cap], 1, some (Except.error e)⟩) := by
  refine ⟨?_, ?_, ?_, ?_⟩
  · constructor
    · rintro ⟨err, herr⟩
      cases hx : assocGet hs promptId with
      | none =>
        simp only [ComfyUIClient.getHistory, hx] at herr
        cases herr
      | some r =>
        refine ⟨r, rfl, ?_⟩
        by_contra hne
        simp only [ComfyUIClient.getHistory, hx] at herr
        rw [if_neg hne] at herr
        cases herr
    · rintro ⟨r, hr, hse⟩
      refine ⟨"Prompt " ++ promptId ++ " failed: " ++
        stringifyMessages r.status.messages, ?_⟩
      simp only [ComfyUIClient.getHistory, hr]
      rw [if_pos hse]
  · intro hrec herr
    refine ⟨"Prompt " ++ promptId ++ " failed: " ++
      stringifyMessages record.status.messages, ?_, ?_, ?_⟩
    · simp only [ComfyUIClient.getHistory, hrec]
      rw [if_pos herr]
    · refine ⟨"Prompt ".data,
        (" failed: " ++ stringifyMessages record.status.messages).data, ?_⟩
      simp [SubstrOf, string_data_append, List.append_assoc]
    · intro m hm
      cases hms : record.status.messages with
      | none => rw [hms] at hm; simp at hm
      | some ms =>
        rw [hms] at hm
        simp only [Option.getD] at hm
        obtain ⟨a, b, hab⟩ := substr_quoteJoin ms m hm
        refine ⟨("Prompt " ++ promptId ++ " failed: " ++ "[").data ++ a,
          b ++ "]".data, ?_⟩
        simp [hms, stringifyMessages, string_data_append, hab, List.append_assoc]
  · intro hne
    cases hx : assocGet hs promptId with
    | none => simp only [ComfyUIClient.getHistory, hx]
    | some r =>
      have hno : ¬ r.status.status_str = "error" := fun hse => hne ⟨r, hx, hse⟩
      simp only [ComfyUIClient.getHistory, hx]
      rw [if_neg hno]
  · intro herr
    simp only [ComfyUIClient.pollUntilDone]
    rw [herr]

/-- Witness for C6, the spec's error-status example: a record with
`status_str = "error"`, `messages = ["x"]` — `getHistory` errors with a text
containing the prompt id `"p1"` and `"x"`, and the poll loop stops after that
single fetch. -/
theorem getHistory_error_semantics_witness :
    (∃ err, ComfyUIClient.getHistory
        [("p1", HRecord.mk ⟨"error", false, some ["x"]⟩ (none : Option (List (String × ℕ))))]
        "p1" = Except.error err ∧ SubstrOf "p1" err ∧
        ∀ m ∈ (some ["x"] : Option (List String)).getD [], SubstrOf m err) ∧
    (ComfyUIClient.pollUntilDone
        (fun _ => [("p1", HRecord.mk ⟨"error", false, some ["x"]⟩ (none : Option (List (String × ℕ))))])
        "p1" 2000 15000 5 0 =
      ⟨[2000], 1, some (Except.error ("Prompt " ++ "p1" ++ " failed: " ++
        stringifyMessages (some ["x"])))⟩) := by
  have h := getHistory_error_semantics
    [("p1", HRecord.mk ⟨"error", false, some ["x"]⟩ (none : Option (List (String × ℕ))))]
    "p1" (HRecord.mk ⟨"error", false, some ["x"]⟩ none)
    (fun _ => [("p1", HRecord.mk ⟨"error", false, some ["x"]⟩ none)]) 2000 15000 4 0
    ("Prompt " ++ "p1" ++ " failed: " ++ stringifyMessages (some ["x"]))
  refine ⟨?_, ?_⟩
  · obtain ⟨err, herr, hsub, hmsg⟩ := h.2.1 (by rfl) (by rfl)
    exact ⟨err, herr, hsub, by simpa using hmsg⟩
  · have := h.2.2.2 (by rfl)
    simpa [exponentialBackoff] using this

theorem pollUntilDone_succ_err {α : Type} (fetchSeq : ℕ → Histories α)
    (promptId : String) (interval cap fuel attempt : ℕ) (e : String)
    (hg : ComfyUIClient.getHistory (fetchSeq attempt) promptId = Except.error e) :
    ComfyUIClient.pollUntilDone fetchSeq promptId interval cap (fuel + 1) attempt =
      ⟨[exponentialBackoff attempt interval cap], 1, some (Except.error e)⟩ := by
  simp only [ComfyUIClient.pollUntilDone, hg]

theorem pollUntilDone_succ_done {α : Type} (fetchSeq : ℕ → Histories α)
    (promptId : String) (interval cap fuel attempt : ℕ) (hs : Histories α)
    (outs : List (String × α))
    (hg : ComfyUIClient.getHistory (fetchSeq attempt) promptId = Except.ok hs)
    (hc : ComfyUIClient.completedOutputs hs promptId = some outs) :
    ComfyUIClient.pollUntilDone fetchSeq promptId interval cap (fuel + 1) attempt =
      ⟨[exponentialBackoff attempt interval cap], 1, some (Except.ok outs)⟩ := by
  simp only [ComfyUIClient.pollUntilDone, hg, hc]

theorem pollUntilDone_succ_cont {α : Type} (fetchSeq : ℕ → Histories α)
    (promptId : String) (interval cap fuel attempt : ℕ) (hs : Histories α)
    (hg : ComfyUIClient.getHistory (fetchSeq attempt) promptId = Except.ok hs)
    (hc : ComfyUIClient.completedOutputs hs promptId = none) :
    ComfyUIClient.pollUntilDone fetchSeq promptId interval cap (fuel + 1) attempt =
      ⟨exponentialBackoff attempt interval cap ::
        (ComfyUIClient.pollUntilDone fetchSeq promptId interval cap fuel (attempt + 1)).waits,
       (ComfyUIClient.pollUntilDone fetchSeq promptId interval cap fuel (attempt + 1)).fetches + 1,
       (ComfyUIClient.pollUntilDone fetchSeq promptId interval cap fuel (attempt + 1)).result⟩ := by
  simp only [ComfyUIClient.pollUntilDone, hg, hc]

theorem pollUntilDone_waits {α : Type} (fetchSeq : ℕ → Histories α) (promptId : String)
    (interval cap : ℕ) : ∀ (fuel attempt n : ℕ),
    (ComfyUIClient.pollUntilDone fetchSeq promptId interval cap fuel attempt).waits.get? n =
      if n < (ComfyUIClient.pollUntilDone fetchSeq promptId interval cap fuel attempt).waits.length
      then some (exponentialBackoff (attempt + n) interval cap)
      else none := by
  intro fuel
  induction fuel with
  | zero =>
    intro attempt n
    simp [ComfyUIClient.pollUntilDone]
  | succ fuel ih =>
    intro attempt n
    cases hg : ComfyUIClient.getHistory (fetchSeq attempt) promptId with
    | error e =>
      rw [pollUntilDone_succ_err fetchSeq promptId interval cap fuel attempt e hg]
      cases n with
      | zero => simp
      | succ j => simp
    | ok hs =>
      cases hc : ComfyUIClient.completedOutputs hs promptId with
      | some outs =>
        rw [pollUntilDone_succ_done fetchSeq promptId interval cap fuel attempt hs outs hg hc]
        cases n with
        | zero => simp
        | succ j => simp
      | none =>
        rw [pollUntilDone_succ_cont fetchSeq promptId interval cap fuel attempt hs hg hc]
        cases n with
        | zero => simp
        | succ j =>
          simp only [List.get?_cons_succ, List.length_cons]
          rw [ih (attempt + 1) j]
          have harith : attempt + 1 + j = attempt + (j + 1) := by omega
          rw [harith]
          by_cases hj : j <
              (ComfyUIClient.pollUntilDone fetchSeq promptId interval cap fuel
                (attempt + 1)).waits.length
          · rw [if_pos hj, if_pos (by omega)]
          · rw [if_neg hj, if_neg (by omega)]

/-- C10: The delay slept before history fetch number n of the poll loop is
`min(interval * 2^n, backoffCap)` — the loop passes `pollCfg.interval` (not
`pollCfg.backoffBase`) as the backoff base — and `backoffBase` influences no
poll delay at all: two configurations agreeing on `interval` and `backoffCap`
produce identical poll runs whatever their `backoffBase` values. -/
theorem poll_delay_uses_interval_not_backoffBase {α : Type}
    (cfg cfg' : ComfyUIClient.PollCfg) (fetchSeq : ℕ → Histories α)
    (promptId : String) (fuel n : ℕ)
    (hn : n < (ComfyUIClient.pollWithCfg cfg fetchSeq promptId fuel).waits.length)
    (hi : cfg'.interval = cfg.interval) (hc : cfg'.backoffCap = cfg.backoffCap) :
    (ComfyUIClient.pollWithCfg cfg fetchSeq promptId fuel).waits.get? n =
      some (min (cfg.interval * 2 ^ n) cfg.backoffCap) ∧
    ComfyUIClient.pollWithCfg cfg' fetchSeq promptId fuel =
      ComfyUIClient.pollWithCfg cfg fetchSeq promptId fuel := by
  constructor
  · have h := pollUntilDone_waits fetchSeq promptId cfg.interval cfg.backoffCap fuel 0 n
    rw [ComfyUIClient.pollWithCfg]
    rw [ComfyUIClient.pollWithCfg] at hn
    rw [h, if_pos hn]
    simp [exponentialBackoff]
  · rw [ComfyUIClient.pollWithCfg, ComfyUIClient.pollWithCfg, hi, hc]

/-- Witness for C10: with default-resolved configuration (interval 4000, cap
15000) and a server that never reports the prompt, the second delay is
`min(4000 * 2, 15000) = 8000`, and replacing `backoffBase` 2000 by 999
changes nothing. -/
theorem poll_delay_uses_interval_not_backoffBase_witness :
    (ComfyUIClient.pollWithCfg (ComfyUIClient.resolvePollCfg none)
        (fun _ => ([] : Histories ℕ)) "p1" 2).waits.get? 1 =
      some (min ((ComfyUIClient.resolvePollCfg none).interval * 2 ^ 1)
        (ComfyUIClient.resolvePollCfg none).backoffCap) ∧
    ComfyUIClient.pollWithCfg (ComfyUIClient.resolvePollCfg (some ⟨none, some 999, none⟩))
        (fun _ => ([] : Histories ℕ)) "p1" 2 =
      ComfyUIClient.pollWithCfg (ComfyUIClient.resolvePollCfg none)
        (fun _ => ([] : Histories ℕ)) "p1" 2 :=
  poll_delay_uses_interval_not_backoffBase
    (ComfyUIClient.resolvePollCfg none)
    (ComfyUIClient.resolvePollCfg (some ⟨none, some 999, none⟩))
    (fun _ => ([] : Histories ℕ)) "p1" 2 1 (by decide) (by decide) (by decide)

/-! ## ArtifactPipeline (src/core/pipeline.ts)

`processArtifact` iterates the configured processors in order over one
artifact's pipeline-state bus (`artifact.pipeline`, an insertion-ordered JS
object, here an association list; the source's lazy
`artifact.pipeline ?? (artifact.pipeline = \x7b\x7d)` initialization makes an
absent bus equivalent to an empty one). `Pipeline.run` is modelled at its
declared input type `Artifact[] | Record<string, Artifact>`: the recursive
walk maps over the array's elements or the record's values, and every such
node satisfies `isArtifact` (has `kind` and `payload`), so the walk processes
it in place and recurses no deeper. Processors (async in the source) are
modelled as pure functions of the artifact. -/

/-- A JS value stored on an artifact's bus or carried as a payload. -/
inductive JVal where
  | vnull
  | vbool (b : Bool)
  | vnum (n : ℤ)
  | vstr (s : String)
  | vobj
deriving DecidableEq, Repr

/-- JS truthiness of a bus value (an absent key, i.e. `undefined`, is falsy
like `vnull`). -/
def truthy : JVal → Bool
  | JVal.vnull => false
  | JVal.vbool b => b
  | JVal.vnum n => n != 0
  | JVal.vstr s => s != ""
  | JVal.vobj => true

/-- An artifact as the pipeline sees it: `kind`, `payload`, `manifest`
(opaque here), and the pipeline-state bus. -/
structure PArtifact where
  kind : String
  payload : JVal
  manifest : String
  pipeline : List (String × JVal)
deriving DecidableEq, Repr

/-- A processor's `next` result: `Pick<Artifact, 'kind' | 'payload' | 'manifest'>`. -/
structure NextPatch where
  kind : String
  payload : JVal
  manifest : String
deriving DecidableEq, Repr

/-- `ArtifactProcessor`: a unique `name`, a `shouldRun` guard, and `run`
producing the stored `output` and an optional `next` patch. -/
structure ArtifactProcessor where
  name : String
  shouldRun : PArtifact → Bool
  run : PArtifact → JVal × Option NextPatch

/-- The input to `Pipeline.run`: `Artifact[] | Record<string, Artifact>`. -/
inductive RunInput where
  | arr (xs : List PArtifact)
  | record (fs : List (String × PArtifact))
deriving DecidableEq, Repr

namespace ArtifactPipeline

/-- One iteration of `processArtifact`'s processor loop:
`if (state[processor.name] || !(await processor.shouldRun(artifact))) continue`,
else run, store `output` under the processor's name, and `Object.assign` the
`next` patch onto the artifact (the patch has no `pipeline` key, so the bus
survives). -/
def procStep (art : PArtifact) (p : ArtifactProcessor) : PArtifact :=
  if truthy ((assocGet art.pipeline p.name).getD JVal.vnull) || !(p.shouldRun art) then
    art
  else
    let out := p.run art
    let art' := { art with pipeline := assocSet art.pipeline p.name out.1 }
    match out.2 with
    | some nx => { art' with kind := nx.kind, payload := nx.payload, manifest := nx.manifest }
    | none => art'

/-- `processArtifact`: apply the configured processors in list order. -/
def processArtifact (processors : List ArtifactProcessor) (a : PArtifact) : PArtifact :=
  processors.foldl procStep a

/-- `Pipeline.run` at its declared input type: the walk applies
`processArtifact` to each artifact of the array / each value of the record,
returning the same shape. -/
def run (ps : List ArtifactProcessor) : RunInput → RunInput
  | RunInput.arr xs => RunInput.arr (xs.map (processArtifact ps))
  | RunInput.record fs =>
    RunInput.record (fs.map (fun kv => (kv.1, processArtifact ps kv.2)))

/-- The artifacts contained in a `Pipeline.run` input. -/
def inputArtifacts : RunInput → List PArtifact
  | RunInput.arr xs => xs
  | RunInput.record fs => fs.map Prod.snd

/-- The artifact has a truthy bus entry (the JS skip check
`state[processor.name]`) for every configured processor's name. -/
def fullyProcessed (ps : List ArtifactProcessor) (a : PArtifact) : Prop :=
  ∀ p ∈ ps, truthy ((assocGet a.pipeline p.name).getD JVal.vnull) = true

instance (ps : List ArtifactProcessor) (a : PArtifact) :
    Decidable (fullyProcessed ps a) :=
  inferInstanceAs (Decidable (∀ p ∈ ps, _ = true))

theorem processArtifact_fixed {ps : List ArtifactProcessor} {a : PArtifact}
    (h : fullyProcessed ps a) : processArtifact ps a = a := by
  induction ps with
  | nil => rfl
  | cons p rest ih =>
    have hskip : procStep a p = a := by
      rw [procStep, if_pos]
      rw [h p (List.mem_cons_self p rest)]
      rfl
    have : processArtifact (p :: rest) a = processArtifact rest (procStep a p) := rfl
    rw [this, hskip]
    exact ih (fun q hq => h q (List.mem_cons_of_mem p hq))

end ArtifactPipeline

/-- C3 (amended): a processor whose name has a *truthy* bus entry on an
artifact is never re-invoked, so invoking `Pipeline.run` again on an input
all of whose artifacts carry truthy bus entries for every configured
processor changes nothing — neither bus entries nor payloads. -/
theorem pipeline_run_idempotent_on_truthy (ps : List ArtifactProcessor) (t : RunInput)
    (h : ∀ a ∈ ArtifactPipeline.inputArtifacts t, ArtifactPipeline.fullyProcessed ps a) :
    ArtifactPipeline.run ps t = t := by
  cases t with
  | arr xs =>
    simp only [ArtifactPipeline.run, RunInput.arr.injEq]
    induction xs with
    | nil => rfl
    | cons x rest ih =>
      simp only [List.map_cons, List.cons.injEq]
      constructor
      · exact ArtifactPipeline.processArtifact_fixed
          (h x (by simp [ArtifactPipeline.inputArtifacts]))
      · exact ih (fun a ha => h a (by
          simp only [ArtifactPipeline.inputArtifacts] at ha ⊢
          exact List.mem_cons_of_mem x ha))
  | record fs =>
    simp only [ArtifactPipeline.run, RunInput.record.injEq]
    induction fs with
    | nil => rfl
    | cons kv rest ih =>
      simp only [List.map_cons, List.cons.injEq]
      refine ⟨?_, ?_⟩
      · have := ArtifactPipeline.processArtifact_fixed
          (h kv.2 (by simp [ArtifactPipeline.inputArtifacts]))
        rw [this]
      · exact ih (fun a ha => h a (by
          simp only [ArtifactPipeline.inputArtifacts] at ha ⊢
          rcases List.mem_map.mp ha with ⟨kv', hkv', hsnd⟩
          exact List.mem_map.mpr ⟨kv', List.mem_cons_of_mem kv hkv', hsnd⟩))

/-- Witness for C3 (amended): one processor whose entry is the truthy value
`true` — a second run is the identity. -/
theorem pipeline_run_idempotent_on_truthy_witness :
    (∀ a ∈ ArtifactPipeline.inputArtifacts
        (RunInput.arr [⟨"text", JVal.vstr "a", "m", [("p", JVal.vbool true)]⟩]),
      ArtifactPipeline.fullyProcessed
        [⟨"p", fun _ => true, fun a => (JVal.vbool false,
          some ⟨a.kind, JVal.vstr "changed", a.manifest⟩)⟩] a) ∧
    ArtifactPipeline.run
        [⟨"p", fun _ => true, fun a => (JVal.vbool false,
          some ⟨a.kind, JVal.vstr "changed", a.manifest⟩)⟩]
        (RunInput.arr [⟨"text", JVal.vstr "a", "m", [("p", JVal.vbool true)]⟩]) =
      RunInput.arr [⟨"text", JVal.vstr "a", "m", [("p", JVal.vbool true)]⟩] :=
  ⟨by decide, pipeline_run_idempotent_on_truthy _ _ (by decide)⟩

/-- C3 (counterexample): the skip check is JS *truthiness* of
`state[processor.name]`, not key presence. A processor that stores the falsy
output `false` is re-invoked by a second `Pipeline.run` even though its bus
entry exists, and the second run changes the payload again ("ax" → "axx"). -/
theorem pipeline_rerun_with_falsy_entry_changes_payload :
    (ArtifactPipeline.run
        [⟨"p", fun _ => true, fun a => (JVal.vbool false,
          some ⟨a.kind,
            JVal.vstr ((match a.payload with | JVal.vstr s => s | _ => "") ++ "x"),
            a.manifest⟩)⟩]
        (RunInput.arr [⟨"text", JVal.vstr "a", "m", []⟩]) =
      RunInput.arr [⟨"text", JVal.vstr "ax", "m", [("p", JVal.vbool false)]⟩]) ∧
    (assocGet [("p", JVal.vbool false)] "p" = some (JVal.vbool false)) ∧
    (ArtifactPipeline.run
        [⟨"p", fun _ => true, fun a => (JVal.vbool false,
          some ⟨a.kind,
            JVal.vstr ((match a.payload with | JVal.vstr s => s | _ => "") ++ "x"),
            a.manifest⟩)⟩]
        (RunInput.arr [⟨"text", JVal.vstr "ax", "m", [("p", JVal.vbool false)]⟩]) =
      RunInput.arr [⟨"text", JVal.vstr "axx", "m", [("p", JVal.vbool false)]⟩]) ∧
    (RunInput.arr [(⟨"text", JVal.vstr "axx", "m", [("p", JVal.vbool false)]⟩ : PArtifact)] ≠
      RunInput.arr [⟨"text", JVal.vstr "ax", "m", [("p", JVal.vbool false)]⟩]) := by
  refine ⟨by decide, by decide, by decide, by decide⟩

/-! ## `applyNodeOutputs` (src/utils.ts) and the tail of `Client.run`

`Client.run` line: `options?.node?.outputs?.length ?
applyNodeOutputs(artifacts, options.node.outputs) : artifacts`. The source
fields `from` and `to` are Lean keywords and are rendered `fromPath` and
`toKey` here. -/

/-- Helper for `splitDots`: accumulate the current segment (reversed). -/
def splitDotsAux : List Char → List Char → List (List Char)
  | [], acc => [acc.reverse]
  | c :: rest, acc =>
    if c = '.' then acc.reverse :: splitDotsAux rest [] else splitDotsAux rest (c :: acc)

/-- JS `to.split('.')`: split a string at every dot (a dot-free string yields
the one-element list of itself). -/
def splitDots (s : String) : List String :=
  (splitDotsAux s.data []).map (fun cs => String.mk cs)

/-- An artifact's manifest as `applyNodeOutputs` sees it (the source reads
`art.manifest?.from` and keeps it only when `isString(from)`). -/
structure OutManifest where
  fromPath : Option String
  promptId : String
deriving DecidableEq, Repr

/-- An artifact produced by extraction (`kind`, `payload`, optional manifest). -/
structure Artifact where
  kind : String
  payload : JVal
  manifest : Option OutManifest
deriving DecidableEq, Repr

/-- A `NodeOutput` mapping entry: `from`, `to`, optional `defaultValue`. -/
structure NodeOutput where
  fromPath : String
  toKey : String
  defaultValue : Option JVal
deriving DecidableEq, Repr

/-- `art.manifest?.from` (a string or `undefined`). -/
def manifestFrom (a : Artifact) : Option String :=
  match a.manifest with
  | some mf => mf.fromPath
  | none => none

/-- The `byFrom` map of `applyNodeOutputs`: artifacts keyed by their
`manifest.from` string; `Map.set` lets a later artifact with the same `from`
overwrite an earlier one. -/
def byFrom (artifacts : List Artifact) : List (String × Artifact) :=
  artifacts.foldl (fun m a =>
    match manifestFrom a with
    | some f => assocSet m f a
    | none => m) []

/-- The value written into the response: `\x7b ...art, payload: value \x7d`.
When no artifact matched, spreading `undefined` contributes nothing and only
`payload` (the `defaultValue`) is present. -/
structure MappedEntry where
  kind : Option String
  manifest : Option OutManifest
  payload : JVal
deriving DecidableEq, Repr

/-- A node of the nested response object built by lodash `set`. -/
inductive RVal where
  | leaf (e : MappedEntry)
  | node (fs : List (String × RVal))

/-- lodash `set(obj, path, value)` on plain objects: walk the key path,
descending into existing object values and replacing anything else by a fresh
empty object (array creation for numeric path segments is not modelled; the
theorems below only use single-segment paths, where `set` is a plain keyed
assignment). -/
def setPath (obj : List (String × RVal)) : List String → RVal → List (String × RVal)
  | [], _ => obj
  | [k], v => assocSet obj k v
  | k :: rest, v =>
    let sub := match assocGet obj k with
      | some (RVal.node fs) => fs
      | _ => []
    assocSet obj k (RVal.node (setPath sub rest v))

/-- One iteration of the `outputs?.forEach` of `applyNodeOutputs`:
`const art = byFrom.get(from); const value = art ? art.payload : defaultValue;
if (!isUndefined(value)) set(response, to.split('.'), \x7b...art, payload: value\x7d)`
(a present artifact's payload is never `undefined`, so a match always writes). -/
def respStep (m : List (String × Artifact)) (response : List (String × RVal))
    (o : NodeOutput) : List (String × RVal) :=
  match assocGet m o.fromPath with
  | some a =>
    setPath response (splitDots o.toKey) (RVal.leaf ⟨some a.kind, a.manifest, a.payload⟩)
  | none =>
    match o.defaultValue with
    | some v => setPath response (splitDots o.toKey) (RVal.leaf ⟨none, none, v⟩)
    | none => response

/-- `applyNodeOutputs(artifacts, outputs)` from src/utils.ts. -/
def applyNodeOutputs (artifacts : List Artifact) (outputs : List NodeOutput) :
    List (String × RVal) :=
  outputs.foldl (respStep (byFrom artifacts)) []

/-- The two shapes `Client.run` can return. -/
inductive RunOutput where
  | flat (artifacts : List Artifact)
  | mapped (response : List (String × RVal))

/-- The tail of `Client.run`: `options?.node?.outputs?.length ?
applyNodeOutputs(artifacts, options.node.outputs) : artifacts` (an absent
outputs config, like an empty one, falls through to the flat artifact array). -/
def runReturn (artifacts : List Artifact) (outputs : Option (List NodeOutput)) : RunOutput :=
  match outputs with
  | some os =>
    if os.length ≠ 0 then RunOutput.mapped (applyNodeOutputs artifacts os)
    else RunOutput.flat artifacts
  | none => RunOutput.flat artifacts

/-- The entry `respStep` writes for `o` (`none`: nothing is written). -/
def entryFor (m : List (String × Artifact)) (o : NodeOutput) : Option MappedEntry :=
  match assocGet m o.fromPath with
  | some a => some ⟨some a.kind, a.manifest, a.payload⟩
  | none => o.defaultValue.map (fun v => ⟨none, none, v⟩)

theorem byFrom_fold_get (f : String) : ∀ (arts : List Artifact) (m : List (String × Artifact)),
    assocGet (arts.foldl (fun m a =>
      match manifestFrom a with
      | some g => assocSet m g a
      | none => m) m) f =
    arts.foldl (fun acc a => if manifestFrom a = some f then some a else acc)
      (assocGet m f) := by
  intro arts
  induction arts with
  | nil => intro m; rfl
  | cons a rest ih =>
    intro m
    simp only [List.foldl_cons]
    rw [ih]
    congr 1
    cases hma : manifestFrom a with
    | none => simp [hma]
    | some g =>
      by_cases hgf : g = f
      · subst hgf
        simp [assocGet_set_eq]
      · simp [hgf, assocGet_set_ne _ _ _ _ hgf]

theorem pick_last_const (f : String) (a : Artifact) :
    ∀ (arts : List Artifact), (∀ b ∈ arts, manifestFrom b = some f → b = a) →
    arts.foldl (fun acc b => if manifestFrom b = some f then some b else acc)
      (some a) = some a := by
  intro arts
  induction arts with
  | nil => intro _; rfl
  | cons b rest ih =>
    intro h
    simp only [List.foldl_cons]
    by_cases hb : manifestFrom b = some f
    · rw [if_pos hb, h b (List.mem_cons_self b rest) hb]
      exact ih (fun c hc hcf => h c (List.mem_cons_of_mem b hc) hcf)
    · rw [if_neg hb]
      exact ih (fun c hc hcf => h c (List.mem_cons_of_mem b hc) hcf)

theorem byFrom_get_unique {arts : List Artifact} {f : String} {a : Artifact}
    (ha : a ∈ arts) (haf : manifestFrom a = some f)
    (huniq : ∀ b ∈ arts, manifestFrom b = some f → b = a) :
    assocGet (byFrom arts) f = some a := by
  rw [byFrom, byFrom_fold_get]
  show arts.foldl _ (assocGet ([] : List (String × Artifact)) f) = some a
  have hnone : assocGet ([] : List (String × Artifact)) f = none := rfl
  rw [hnone]
  clear hnone
  induction arts with
  | nil => simp at ha
  | cons b rest ih =>
    simp only [List.foldl_cons]
    by_cases hb : manifestFrom b = some f
    · rw [if_pos hb, huniq b (List.mem_cons_self b rest) hb]
      exact pick_last_const f a rest
        (fun c hc hcf => huniq c (List.mem_cons_of_mem b hc) hcf)
    · rw [if_neg hb]
      rcases List.mem_cons.mp ha with hab | harest
      · exact absurd (hab ▸ haf) hb
      · exact ih harest (fun c hc hcf => huniq c (List.mem_cons_of_mem b hc) hcf)

theorem byFrom_get_none {arts : List Artifact} {f : String}
    (h : ∀ b ∈ arts, manifestFrom b ≠ some f) :
    assocGet (byFrom arts) f = none := by
  rw [byFrom, byFrom_fold_get]
  show arts.foldl _ (assocGet ([] : List (String × Artifact)) f) = none
  have hnone : assocGet ([] : List (String × Artifact)) f = none := rfl
  rw [hnone]
  clear hnone
  induction arts with
  | nil => rfl
  | cons b rest ih =>
    simp only [List.foldl_cons]
    rw [if_neg (h b (List.mem_cons_self b rest))]
    exact ih (fun c hc => h c (List.mem_cons_of_mem b hc))

theorem respStep_other_key {m : List (String × Artifact)}
    {response : List (String × RVal)} {o : NodeOutput} {k : String}
    (hsplit : splitDots o.toKey = [o.toKey]) (hne : o.toKey ≠ k) :
    assocGet (respStep m response o) k = assocGet response k := by
  rw [respStep]
  cases assocGet m o.fromPath with
  | some a =>
    rw [hsplit]
    exact assocGet_set_ne _ _ _ _ hne
  | none =>
    cases o.defaultValue with
    | some v =>
      rw [hsplit]
      exact assocGet_set_ne _ _ _ _ hne
    | none => rfl

theorem respFold_untouched {m : List (String × Artifact)} {k : String} :
    ∀ (os : List NodeOutput) (response : List (String × RVal)),
    (∀ o ∈ os, splitDots o.toKey = [o.toKey]) → k ∉ os.map NodeOutput.toKey →
    assocGet (os.foldl (respStep m) response) k = assocGet response k := by
  intro os
  induction os with
  | nil => intro response _ _; rfl
  | cons o rest ih =>
    intro response hsplit hk
    simp only [List.map_cons, List.mem_cons] at hk
    push_neg at hk
    simp only [List.foldl_cons]
    rw [ih (respStep m response o)
      (fun o' ho' => hsplit o' (List.mem_cons_of_mem o ho')) hk.2]
    exact respStep_other_key (hsplit o (List.mem_cons_self o rest)) (fun h => hk.1 h.symm)

theorem respFold_get {m : List (String × Artifact)} :
    ∀ (os : List NodeOutput) (response : List (String × RVal)) (o : NodeOutput),
    o ∈ os → (∀ o' ∈ os, splitDots o'.toKey = [o'.toKey]) →
    (os.map NodeOutput.toKey).Nodup →
    assocGet (os.foldl (respStep m) response) o.toKey =
      match entryFor m o with
      | some e => some (RVal.leaf e)
      | none => assocGet response o.toKey := by
  intro os
  induction os with
  | nil => intro _ o ho; simp at ho
  | cons o' rest ih =>
    intro response o ho hsplit hnodup
    simp only [List.map_cons, List.nodup_cons] at hnodup
    simp only [List.foldl_cons]
    rcases List.mem_cons.mp ho with hoo | horest
    · subst hoo
      rw [respFold_untouched rest (respStep m response o)
        (fun o'' ho'' => hsplit o'' (List.mem_cons_of_mem o ho'')) hnodup.1]
      rw [respStep, entryFor]
      cases assocGet m o.fromPath with
      | some a =>
        rw [hsplit o (List.mem_cons_self o rest)]
        simp [setPath, assocGet_set_eq]
      | none =>
        cases o.defaultValue with
        | some v =>
          rw [hsplit o (List.mem_cons_self o rest)]
          simp [setPath, assocGet_set_eq]
        | none => rfl
    · rw [ih (respStep m response o') o horest
        (fun o'' ho'' => hsplit o'' (List.mem_cons_of_mem o' ho'')) hnodup.2]
      have hne : o'.toKey ≠ o.toKey := by
        intro he
        exact hnodup.1 (he ▸ List.mem_map.mpr ⟨o, horest, rfl⟩)
      cases entryFor m o with
      | some e => rfl
      | none =>
        exact respStep_other_key (hsplit o' (List.mem_cons_self o' rest)) hne

/-- C9: With an output-mapping config whose `to` keys are plain (dot-free)
and pairwise distinct: an entry whose `from` is matched by exactly one
artifact's `manifest.from` puts that artifact — its kind, manifest and its
own payload — at the entry's `to` key of the result map; an unmatched entry
uses `defaultValue` as the payload (with no artifact fields) and writes
nothing when no default is configured; and with no (or an empty)
output-mapping config `run` returns the flat artifact array unchanged. -/
theorem applyNodeOutputs_spec (artifacts : List Artifact) (os : List NodeOutput)
    (hsplit : ∀ o ∈ os, splitDots o.toKey = [o.toKey])
    (hnodup : (os.map NodeOutput.toKey).Nodup) :
    (∀ o ∈ os,
      (∀ a, a ∈ artifacts → manifestFrom a = some o.fromPath →
        (∀ b ∈ artifacts, manifestFrom b = some o.fromPath → b = a) →
        assocGet (applyNodeOutputs artifacts os) o.toKey =
          some (RVal.leaf ⟨some a.kind, a.manifest, a.payload⟩)) ∧
      ((∀ b ∈ artifacts, manifestFrom b ≠ some o.fromPath) →
        ∀ v, o.defaultValue = some v →
        assocGet (applyNodeOutputs artifacts os) o.toKey =
          some (RVal.leaf ⟨none, none, v⟩)) ∧
      ((∀ b ∈ artifacts, manifestFrom b ≠ some o.fromPath) → o.defaultValue = none →
        assocGet (applyNodeOutputs artifacts os) o.toKey = none)) ∧
    runReturn artifacts none = RunOutput.flat artifacts ∧
    runReturn artifacts (some []) = RunOutput.flat artifacts ∧
    (os ≠ [] →
      runReturn artifacts (some os) =
        RunOutput.mapped (applyNodeOutputs artifacts os)) := by
  refine ⟨?_, rfl, rfl, ?_⟩
  · intro o ho
    have hbase := @respFold_get (byFrom artifacts) os ([] : List (String × RVal)) o ho hsplit hnodup
    refine ⟨?_, ?_, ?_⟩
    · intro a ha haf huniq
      rw [applyNodeOutputs, hbase, entryFor, byFrom_get_unique ha haf huniq]
    · intro hnone v hv
      rw [applyNodeOutputs, hbase, entryFor, byFrom_get_none hnone, hv]
      rfl
    · intro hnone hv
      rw [applyNodeOutputs, hbase, entryFor, byFrom_get_none hnone, hv]
      rfl
  · intro hne
    rw [runReturn, if_pos (by simpa using hne)]

/-- Witness for C9, the spec's output-mapping example: entry
`\x7bfrom: "9", to: "image"\x7d` plus one artifact with `manifest.from = "9"`
— the result has the artifact (with its payload) at key `image`. -/
theorem applyNodeOutputs_spec_witness :
    assocGet (applyNodeOutputs
        [⟨"text", JVal.vstr "v", some ⟨some "9", "pid"⟩⟩]
        [⟨"9", "image", none⟩]) "image" =
      some (RVal.leaf ⟨some "text", some ⟨some "9", "pid"⟩, JVal.vstr "v"⟩) :=
  (((applyNodeOutputs_spec
      [⟨"text", JVal.vstr "v", some ⟨some "9", "pid"⟩⟩]
      [⟨"9", "image", none⟩] (by decide) (by decide)).1
    ⟨"9", "image", none⟩ (by decide)).1
    ⟨"text", JVal.vstr "v", some ⟨some "9", "pid"⟩⟩ (by decide) (by decide)
    (by decide))

/-! ## `ComfyUIClient.walkLeaves` — leaf extraction paths (src/core/client.ts)

The walk builds path strings by appending `.key` for an object member and
`[i]` for an array index. Paths are modelled at the character level
(`List Char`, a JS string's character sequence) so that collisions between
separator characters and key contents can be reasoned about. -/

/-- One decimal digit character (only applied to values `< 10`). -/
def digitChar : ℕ → Char
  | 0 => '0'
  | 1 => '1'
  | 2 => '2'
  | 3 => '3'
  | 4 => '4'
  | 5 => '5'
  | 6 => '6'
  | 7 => '7'
  | 8 => '8'
  | _ => '9'

/-- The decimal representation of a natural number — the characters JS
produces for the template `${i}`. -/
def decRepr (n : ℕ) : List Char :=
  if n < 10 then [digitChar n]
  else decRepr (n / 10) ++ [digitChar (n % 10)]
termination_by n
decreasing_by exact Nat.div_lt_self (by omega) (by norm_num)

/-- Numeric value of a digit character. -/
def decDigitVal (c : Char) : ℕ := c.toNat - 48

/-- Value of a big-endian digit string. -/
def decVal (l : List Char) : ℕ := l.foldl (fun a c => a * 10 + decDigitVal c) 0

theorem digitChar_toNat {d : ℕ} (h : d < 10) : decDigitVal (digitChar d) = d := by
  interval_cases d <;> rfl

theorem decVal_append_digit (xs : List Char) (c : Char) :
    decVal (xs ++ [c]) = decVal xs * 10 + decDigitVal c := by
  simp [decVal, List.foldl_append]

theorem decVal_singleton (c : Char) : decVal [c] = decDigitVal c := by
  simp [decVal]

theorem decVal_decRepr (n : ℕ) : decVal (decRepr n) = n := by
  induction n using Nat.strong_induction_on with
  | _ n ih =>
    by_cases h : n < 10
    · rw [decRepr, if_pos h, decVal_singleton, digitChar_toNat h]
    · rw [decRepr, if_neg h, decVal_append_digit,
        ih (n / 10) (Nat.div_lt_self (by omega) (by norm_num)),
        digitChar_toNat (Nat.mod_lt _ (by norm_num))]
      omega

theorem decRepr_injective {a b : ℕ} (h : decRepr a = decRepr b) : a = b := by
  have := congrArg decVal h
  rwa [decVal_decRepr, decVal_decRepr] at this

theorem digitChar_not_special (d : ℕ) :
    digitChar d ≠ '.' ∧ digitChar d ≠ '[' ∧ digitChar d ≠ ']' := by
  simp only [digitChar]
  split <;> refine ⟨by decide, by decide, by decide⟩

theorem decRepr_digits (n : ℕ) :
    ∀ c ∈ decRepr n, c ≠ '.' ∧ c ≠ '[' ∧ c ≠ ']' := by
  induction n using Nat.strong_induction_on with
  | _ n ih =>
    intro c hc
    by_cases h : n < 10
    · rw [decRepr, if_pos h] at hc
      simp only [List.mem_singleton] at hc
      subst hc
      exact digitChar_not_special n
    · rw [decRepr, if_neg h] at hc
      rcases List.mem_append.mp hc with hfr | hlast
      · exact ih (n / 10) (Nat.div_lt_self (by omega) (by norm_num)) c hfr
      · simp only [List.mem_singleton] at hlast
        subst hlast
        exact digitChar_not_special (n % 10)

/-- One step of a leaf position: an object key or an array index. -/
inductive PathStep where
  | key (k : List Char)
  | idx (i : ℕ)
deriving DecidableEq, Repr

/-- The characters a step appends to a path: `` `${path}.${key}` `` or
`` `${path}[${i}]` ``. -/
def stepChars : PathStep → List Char
  | PathStep.key k => '.' :: k
  | PathStep.idx i => '[' :: (decRepr i ++ [']'])

/-- The full suffix a position (list of steps, outermost first) appends to
the root path. -/
def stepsChars (st : List PathStep) : List Char :=
  (st.map stepChars).flatten

/-- A key that contains neither `.` nor `[` (such keys keep the
position-to-path encoding unambiguous). -/
def cleanKey (k : List Char) : Prop := ∀ c ∈ k, c ≠ '.' ∧ c ≠ '['

/-- A step whose key (if any) is clean. -/
def cleanStep : PathStep → Prop
  | PathStep.key k => cleanKey k
  | PathStep.idx _ => True

/-- Self-delimiting concatenation: if neither `a` nor `b` contains a
character satisfying `S`, and both remainders are empty or start with such a
character, then `a ++ x = b ++ y` splits uniquely. -/
theorem append_stop_cancel (S : Char → Prop) :
    ∀ (a b x y : List Char), (∀ c ∈ a, ¬ S c) → (∀ c ∈ b, ¬ S c) →
    (x = [] ∨ ∃ c t, x = c :: t ∧ S c) → (y = [] ∨ ∃ c t, y = c :: t ∧ S c) →
    a ++ x = b ++ y → a = b ∧ x = y := by
  intro a
  induction a with
  | nil =>
    intro b x y _ hb hx _ heq
    cases b with
    | nil => exact ⟨rfl, heq⟩
    | cons c bt =>
      simp only [List.nil_append] at heq
      rcases hx with hxe | ⟨c', t, hct, hSc⟩
      · rw [hxe] at heq; cases heq
      · rw [hct] at heq
        have hc : c' = c := (List.cons.injEq _ _ _ _ ▸ heq).1
        exact absurd (hc ▸ hSc) (hb c (List.mem_cons_self c bt))
  | cons c at' ih =>
    intro b x y ha hb hx hy heq
    cases b with
    | nil =>
      simp only [List.nil_append] at heq
      rcases hy with hye | ⟨c', t, hct, hSc⟩
      · rw [hye] at heq; cases heq
      · rw [hct] at heq
        have hc : c' = c := by
          have := heq.symm
          exact (List.cons.injEq _ _ _ _ ▸ this).1
        exact absurd (hc ▸ hSc) (ha c (List.mem_cons_self c at'))
    | cons d bt =>
      simp only [List.cons_append, List.cons.injEq] at heq
      obtain ⟨hcd, hrest⟩ := heq
      obtain ⟨h1, h2⟩ := ih bt x y
        (fun e he => ha e (List.mem_cons_of_mem c he))
        (fun e he => hb e (List.mem_cons_of_mem d he)) hx hy hrest
      exact ⟨by rw [hcd, h1], h2⟩

theorem stepsChars_nil : stepsChars [] = [] := rfl

theorem stepsChars_cons (s : PathStep) (rest : List PathStep) :
    stepsChars (s :: rest) = stepChars s ++ stepsChars rest := by
  simp [stepsChars]

/-- An encoded position suffix is empty or starts with `.` or `[`. -/
theorem stepsChars_head (st : List PathStep) :
    stepsChars st = [] ∨ ∃ c t, stepsChars st = c :: t ∧ (c = '.' ∨ c = '[') := by
  cases st with
  | nil => exact Or.inl rfl
  | cons s rest =>
    right
    cases s with
    | key k =>
      exact ⟨'.', k ++ stepsChars rest, by simp [stepsChars_cons, stepChars], Or.inl rfl⟩
    | idx i =>
      exact ⟨'[', (decRepr i ++ [']']) ++ stepsChars rest,
        by simp [stepsChars_cons, stepChars], Or.inr rfl⟩

/-- The position-to-suffix encoding is injective on clean positions. -/
theorem stepsChars_inj : ∀ (s1 s2 : List PathStep), (∀ s ∈ s1, cleanStep s) →
    (∀ s ∈ s2, cleanStep s) → stepsChars s1 = stepsChars s2 → s1 = s2 := by
  intro s1
  induction s1 with
  | nil =>
    intro s2 _ _ heq
    cases s2 with
    | nil => rfl
    | cons s rest =>
      exfalso
      rw [stepsChars_nil, stepsChars_cons] at heq
      cases s with
      | key k => cases heq
      | idx i => cases heq
  | cons s rest ih =>
    intro s2 h1 h2 heq
    cases s2 with
    | nil =>
      exfalso
      rw [stepsChars_nil, stepsChars_cons] at heq
      cases s with
      | key k => cases heq
      | idx i => cases heq
    | cons s' rest' =>
      rw [stepsChars_cons, stepsChars_cons] at heq
      cases s with
      | key k =>
        cases s' with
        | key k' =>
          simp only [stepChars, List.cons_append, List.cons.injEq] at heq
          have hk1 : cleanKey k := h1 (PathStep.key k) (List.mem_cons_self _ _)
          have hk2 : cleanKey k' := h2 (PathStep.key k') (List.mem_cons_self _ _)
          obtain ⟨hkk, htails⟩ := append_stop_cancel (fun c => c = '.' ∨ c = '[')
            k k' (stepsChars rest) (stepsChars rest')
            (fun c hc => by
              have := hk1 c hc
              rintro (h | h) <;> [exact this.1 h; exact this.2 h])
            (fun c hc => by
              have := hk2 c hc
              rintro (h | h) <;> [exact this.1 h; exact this.2 h])
            (stepsChars_head rest) (stepsChars_head rest') heq.2
          have hrest := ih rest'
            (fun q hq => h1 q (List.mem_cons_of_mem _ hq))
            (fun q hq => h2 q (List.mem_cons_of_mem _ hq)) htails
          rw [hkk, hrest]
        | idx i =>
          exfalso
          simp only [stepChars, List.cons_append, List.cons.injEq] at heq
          cases heq.1
      | idx i =>
        cases s' with
        | key k' =>
          exfalso
          simp only [stepChars, List.cons_append, List.cons.injEq] at heq
          cases heq.1
        | idx i' =>
          simp only [stepChars, List.cons_append, List.cons.injEq,
            List.append_assoc, List.singleton_append] at heq
          obtain ⟨hdd, htails⟩ := append_stop_cancel (fun c => c = ']')
            (decRepr i) (decRepr i')
            (']' :: stepsChars rest) (']' :: stepsChars rest')
            (fun c hc hS => (decRepr_digits i c hc).2.2 hS)
            (fun c hc hS => (decRepr_digits i' c hc).2.2 hS)
            (Or.inr ⟨']', stepsChars rest, rfl, rfl⟩)
            (Or.inr ⟨']', stepsChars rest', rfl, rfl⟩) heq.2
          have hii : i = i' := decRepr_injective hdd
          have htl : stepsChars rest = stepsChars rest' := by
            injection htails
          have hrest := ih rest'
            (fun q hq => h1 q (List.mem_cons_of_mem _ hq))
            (fun q hq => h2 q (List.mem_cons_of_mem _ hq)) htl
          rw [hii, hrest]

/-- The raw outputs tree walked by extraction: binary-resource descriptors
(`isBinaryManifest` — an object with string `filename` and `type`, checked
before `isPlainObject`, so such an object is a leaf), bare strings, arrays,
plain objects (insertion-ordered fields), and any other scalar, which the
walk silently omits. -/
inductive OutTree where
  | binary (filename ftype : List Char)
  | str (s : List Char)
  | arr (xs : List OutTree)
  | obj (fields : List (List Char × OutTree))
  | other

/-- A leaf value yielded by the walk. -/
inductive LeafVal where
  | bin (filename ftype : List Char)
  | strv (s : List Char)
deriving DecidableEq, Repr

mutual
/-- `walkLeaves(node, path)`: binary manifests and strings are yielded with
the current path; arrays recurse with `` `${path}[${i}]` ``; plain objects
recurse with `` `${path}.${key}` ``; anything else yields nothing. -/
def walkLeaves : OutTree → List Char → List (LeafVal × List Char)
  | OutTree.binary fn ft, path => [(LeafVal.bin fn ft, path)]
  | OutTree.str s, path => [(LeafVal.strv s, path)]
  | OutTree.arr xs, path => walkArr xs 0 path
  | OutTree.obj fs, path => walkObj fs path
  | OutTree.other, _ => []

/-- The `for (let i = 0; i < node.length; i++)` loop of the walk. -/
def walkArr : List OutTree → ℕ → List Char → List (LeafVal × List Char)
  | [], _, _ => []
  | x :: xs, i, path =>
    walkLeaves x (path ++ '[' :: (decRepr i ++ [']'])) ++ walkArr xs (i + 1) path

/-- The `for (const [key, val] of Object.entries(node))` loop of the walk. -/
def walkObj : List (List Char × OutTree) → List Char → List (LeafVal × List Char)
  | [], _ => []
  | (k, v) :: fs, path => walkLeaves v (path ++ '.' :: k) ++ walkObj fs path
end

mutual
/-- Specification-side view of the walk: each leaf value with its structural
position (the list of steps from the root). -/
def leafPositions : OutTree → List (LeafVal × List PathStep)
  | OutTree.binary fn ft => [(LeafVal.bin fn ft, [])]
  | OutTree.str s => [(LeafVal.strv s, [])]
  | OutTree.arr xs => posArr xs 0
  | OutTree.obj fs => posObj fs
  | OutTree.other => []

/-- Positions of the leaves under an array's elements, indices from `i`. -/
def posArr : List OutTree → ℕ → List (LeafVal × List PathStep)
  | [], _ => []
  | x :: xs, i =>
    (leafPositions x).map (fun p => (p.1, PathStep.idx i :: p.2)) ++ posArr xs (i + 1)

/-- Positions of the leaves under an object's fields. -/
def posObj : List (List Char × OutTree) → List (LeafVal × List PathStep)
  | [] => []
  | (k, v) :: fs =>
    (leafPositions v).map (fun p => (p.1, PathStep.key k :: p.2)) ++ posObj fs
end

mutual
theorem walkLeaves_eq_pos (t : OutTree) (path : List Char) :
    walkLeaves t path =
      (leafPositions t).map (fun p => (p.1, path ++ stepsChars p.2)) := by
  cases t with
  | binary fn ft => simp [walkLeaves, leafPositions, stepsChars_nil]
  | str s => simp [walkLeaves, leafPositions, stepsChars_nil]
  | arr xs => rw [walkLeaves, leafPositions]; exact walkArr_eq_pos xs 0 path
  | obj fs => rw [walkLeaves, leafPositions]; exact walkObj_eq_pos fs path
  | other => rfl

theorem walkArr_eq_pos (xs : List OutTree) (i : ℕ) (path : List Char) :
    walkArr xs i path =
      (posArr xs i).map (fun p => (p.1, path ++ stepsChars p.2)) := by
  cases xs with
  | nil => rfl
  | cons x rest =>
    rw [walkArr, posArr, List.map_append, List.map_map]
    rw [walkLeaves_eq_pos x (path ++ '[' :: (decRepr i ++ [']']))]
    rw [walkArr_eq_pos rest (i + 1) path]
    congr 1
    apply List.map_congr_left
    intro p _
    simp [Function.comp, stepsChars_cons, stepChars, List.append_assoc]

theorem walkObj_eq_pos (fs : List (List Char × OutTree)) (path : List Char) :
    walkObj fs path =
      (posObj fs).map (fun p => (p.1, path ++ stepsChars p.2)) := by
  cases fs with
  | nil => rfl
  | cons kv rest =>
    obtain ⟨k, v⟩ := kv
    rw [walkObj, posObj, List.map_append, List.map_map]
    rw [walkLeaves_eq_pos v (path ++ '.' :: k)]
    rw [walkObj_eq_pos rest path]
    congr 1
    apply List.map_congr_left
    intro p _
    simp [Function.comp, stepsChars_cons, stepChars, List.append_assoc]
end

mutual
/-- A well-formed outputs tree whose object keys are pairwise distinct (JS
objects cannot repeat a key) and clean (no `.` or `[` in a key). -/
def CleanTree : OutTree → Prop
  | OutTree.binary _ _ => True
  | OutTree.str _ => True
  | OutTree.arr xs => CleanList xs
  | OutTree.obj fs => (fs.map Prod.fst).Nodup ∧ CleanFields fs
  | OutTree.other => True

/-- All elements of an array are clean trees. -/
def CleanList : List OutTree → Prop
  | [] => True
  | x :: xs => CleanTree x ∧ CleanList xs

/-- All fields of an object have clean keys and clean subtrees. -/
def CleanFields : List (List Char × OutTree) → Prop
  | [] => True
  | (k, v) :: fs => cleanKey k ∧ CleanTree v ∧ CleanFields fs
end

theorem posArr_head : ∀ (xs : List OutTree) (i : ℕ) (p : LeafVal × List PathStep),
    p ∈ posArr xs i → ∃ j, i ≤ j ∧ ∃ tl, p.2 = PathStep.idx j :: tl := by
  intro xs
  induction xs with
  | nil => intro i p hp; simp [posArr] at hp
  | cons x rest ih =>
    intro i p hp
    rw [posArr] at hp
    rcases List.mem_append.mp hp with hmap | hrest
    · obtain ⟨q, _, hq⟩ := List.mem_map.mp hmap
      exact ⟨i, le_refl i, q.2, by rw [← hq]⟩
    · obtain ⟨j, hij, tl, htl⟩ := ih (i + 1) p hrest
      exact ⟨j, by omega, tl, htl⟩

theorem posObj_head : ∀ (fs : List (List Char × OutTree)) (p : LeafVal × List PathStep),
    p ∈ posObj fs → ∃ k, k ∈ fs.map Prod.fst ∧ ∃ tl, p.2 = PathStep.key k :: tl := by
  intro fs
  induction fs with
  | nil => intro p hp; simp [posObj] at hp
  | cons kv rest ih =>
    obtain ⟨k, v⟩ := kv
    intro p hp
    rw [posObj] at hp
    rcases List.mem_append.mp hp with hmap | hrest
    · obtain ⟨q, _, hq⟩ := List.mem_map.mp hmap
      exact ⟨k, List.mem_map.mpr ⟨(k, v), List.mem_cons_self _ _, rfl⟩, q.2, by rw [← hq]⟩
    · obtain ⟨k', hk', tl, htl⟩ := ih p hrest
      exact ⟨k', by simp [hk'], tl, htl⟩

mutual
theorem leafPositions_nodup (t : OutTree) (h : CleanTree t) :
    ((leafPositions t).map Prod.snd).Nodup := by
  cases t with
  | binary fn ft => simp [leafPositions]
  | str s => simp [leafPositions]
  | arr xs => rw [leafPositions]; exact posArr_nodup xs 0 h
  | obj fs => rw [leafPositions]; exact posObj_nodup fs h.1 h.2
  | other => simp [leafPositions]

theorem posArr_nodup (xs : List OutTree) (i : ℕ) (h : CleanList xs) :
    ((posArr xs i).map Prod.snd).Nodup := by
  cases xs with
  | nil => simp [posArr]
  | cons x rest =>
    rw [posArr, List.map_append]
    apply List.Nodup.append
    · rw [List.map_map]
      have hfuse : ((leafPositions x).map
          (Prod.snd ∘ (fun p : LeafVal × List PathStep => (p.1, PathStep.idx i :: p.2)))) =
          (((leafPositions x).map Prod.snd).map
            (fun st => PathStep.idx i :: st)) := by
        rw [List.map_map]
        rfl
      rw [hfuse]
      exact (leafPositions_nodup x h.1).map
        (fun a b hab => by injection hab)
    · exact posArr_nodup rest (i + 1) h.2
    · intro st hst hst'
      rw [List.map_map] at hst
      obtain ⟨p, _, hp⟩ := List.mem_map.mp hst
      obtain ⟨q, hq, hqsnd⟩ := List.mem_map.mp hst'
      obtain ⟨j, hij, tl, htl⟩ := posArr_head rest (i + 1) q hq
      have h1 : PathStep.idx i :: p.2 = st := hp
      have h2 : PathStep.idx j :: tl = st := by rw [← hqsnd, htl]
      have h12 := h1.trans h2.symm
      have hinj : PathStep.idx i = PathStep.idx j := (List.cons.injEq _ _ _ _ ▸ h12).1
      have : i = j := by injection hinj
      omega

theorem posObj_nodup (fs : List (List Char × OutTree))
    (hkeys : (fs.map Prod.fst).Nodup) (h : CleanFields fs) :
    ((posObj fs).map Prod.snd).Nodup := by
  cases fs with
  | nil => simp [posObj]
  | cons kv rest =>
    obtain ⟨k, v⟩ := kv
    rw [posObj, List.map_append]
    simp only [List.map_cons, List.nodup_cons] at hkeys
    apply List.Nodup.append
    · rw [List.map_map]
      have hfuse : ((leafPositions v).map
          (Prod.snd ∘ (fun p : LeafVal × List PathStep => (p.1, PathStep.key k :: p.2)))) =
          (((leafPositions v).map Prod.snd).map
            (fun st => PathStep.key k :: st)) := by
        rw [List.map_map]
        rfl
      rw [hfuse]
      exact (leafPositions_nodup v h.2.1).map
        (fun a b hab => by injection hab)
    · exact posObj_nodup rest hkeys.2 h.2.2
    · intro st hst hst'
      rw [List.map_map] at hst
      obtain ⟨p, _, hp⟩ := List.mem_map.mp hst
      obtain ⟨q, hq, hqsnd⟩ := List.mem_map.mp hst'
      obtain ⟨k', hk', tl, htl⟩ := posObj_head rest q hq
      have h1 : PathStep.key k :: p.2 = st := hp
      have h2 : PathStep.key k' :: tl = st := by rw [← hqsnd, htl]
      have h12 := h1.trans h2.symm
      have hinj : PathStep.key k = PathStep.key k' := (List.cons.injEq _ _ _ _ ▸ h12).1
      have hkk : k = k' := by injection hinj
      exact hkeys.1 (hkk ▸ hk')
end

mutual
theorem leafPositions_clean (t : OutTree) (h : CleanTree t) :
    ∀ p ∈ leafPositions t, ∀ s ∈ p.2, cleanStep s := by
  cases t with
  | binary fn ft =>
    intro p hp
    simp only [leafPositions, List.mem_singleton] at hp
    subst hp
    intro s hs
    simp at hs
  | str s0 =>
    intro p hp
    simp only [leafPositions, List.mem_singleton] at hp
    subst hp
    intro s hs
    simp at hs
  | arr xs =>
    intro p hp
    rw [leafPositions] at hp
    exact posArr_clean xs 0 h p hp
  | obj fs =>
    intro p hp
    rw [leafPositions] at hp
    exact posObj_clean fs h.2 p hp
  | other =>
    intro p hp
    simp [leafPositions] at hp

theorem posArr_clean (xs : List OutTree) (i : ℕ) (h : CleanList xs) :
    ∀ p ∈ posArr xs i, ∀ s ∈ p.2, cleanStep s := by
  cases xs with
  | nil => intro p hp; simp [posArr] at hp
  | cons x rest =>
    intro p hp
    rw [posArr] at hp
    rcases List.mem_append.mp hp with hmap | hrest
    · obtain ⟨q, hq, hqp⟩ := List.mem_map.mp hmap
      intro s hs
      rw [← hqp] at hs
      simp only [List.mem_cons] at hs
      rcases hs with hs0 | hsq
      · rw [hs0]; trivial
      · exact leafPositions_clean x h.1 q hq s hsq
    · exact posArr_clean rest (i + 1) h.2 p hrest

theorem posObj_clean (fs : List (List Char × OutTree)) (h : CleanFields fs) :
    ∀ p ∈ posObj fs, ∀ s ∈ p.2, cleanStep s := by
  cases fs with
  | nil => intro p hp; simp [posObj] at hp
  | cons kv rest =>
    obtain ⟨k, v⟩ := kv
    intro p hp
    rw [posObj] at hp
    rcases List.mem_append.mp hp with hmap | hrest
    · obtain ⟨q, hq, hqp⟩ := List.mem_map.mp hmap
      intro s hs
      rw [← hqp] at hs
      simp only [List.mem_cons] at hs
      rcases hs with hs0 | hsq
      · rw [hs0]; exact h.1
      · exact leafPositions_clean v h.2.1 q hq s hsq
    · exact posObj_clean rest h.2.2 p hrest
end

/-- C4 (amended): for every well-formed outputs tree in which no object key
contains `.` or `[`, the walk's leaf paths are pairwise distinct — the
position-to-path mapping is injective (distinct array indices and distinct
keys, at any depth, never collide). Without that key restriction, distinct
positions can collide (see the counterexample). -/
theorem walkLeaves_paths_injective (t : OutTree) (root : List Char) (h : CleanTree t) :
    ((walkLeaves t root).map Prod.snd).Nodup := by
  rw [walkLeaves_eq_pos, List.map_map]
  have hshape : (Prod.snd ∘ fun p : LeafVal × List PathStep =>
      (p.1, root ++ stepsChars p.2)) =
      (fun st => root ++ stepsChars st) ∘ Prod.snd := rfl
  rw [hshape, ← List.map_map]
  apply List.Nodup.map_on
  · intro st hst st' hst' heq
    obtain ⟨p, hp, hps⟩ := List.mem_map.mp hst
    obtain ⟨p', hp', hps'⟩ := List.mem_map.mp hst'
    have hclean : ∀ s ∈ st, cleanStep s := by
      rw [← hps]; exact leafPositions_clean t h p hp
    have hclean' : ∀ s ∈ st', cleanStep s := by
      rw [← hps']; exact leafPositions_clean t h p' hp'
    exact stepsChars_inj st st' hclean hclean' (List.append_cancel_left heq)
  · exact leafPositions_nodup t h

/-- Witness for C4 (amended): the nested tree
`\x7bimages: [\x7bfilename, type\x7d], text: "ok"\x7d` under root `"8"` has
pairwise distinct paths (`8.images[0]`, `8.text`). -/
theorem walkLeaves_paths_injective_witness :
    CleanTree (OutTree.obj
      [("images".data, OutTree.arr [OutTree.binary "f.png".data "output".data]),
        ("text".data, OutTree.str "ok".data)]) ∧
    ((walkLeaves (OutTree.obj
        [("images".data, OutTree.arr [OutTree.binary "f.png".data "output".data]),
          ("text".data, OutTree.str "ok".data)]) "8".data).map Prod.snd).Nodup := by
  have hclean : CleanTree (OutTree.obj
      [("images".data, OutTree.arr [OutTree.binary "f.png".data "output".data]),
        ("text".data, OutTree.str "ok".data)]) := by
    simp only [CleanTree, CleanFields, CleanList, cleanKey]
    exact ⟨by decide, by decide, ⟨trivial, trivial⟩, by decide, trivial, trivial⟩
  exact ⟨hclean, walkLeaves_paths_injective _ _ hclean⟩

/-- C4 (counterexample): with a key containing a separator character the
mapping is not injective: the tree `\x7b"a.b": "x", "a": \x7b"b": "y"\x7d\x7d`
walked from root `"1"` yields two distinct leaves (values `"x"` and `"y"`)
whose `manifest.from` paths are both `1.a.b`. -/
theorem walkLeaves_paths_collide :
    walkLeaves (OutTree.obj [("a.b".data, OutTree.str "x".data),
        ("a".data, OutTree.obj [("b".data, OutTree.str "y".data)])]) "1".data =
      [(LeafVal.strv "x".data, "1.a.b".data), (LeafVal.strv "y".data, "1.a.b".data)] ∧
    ¬ ((walkLeaves (OutTree.obj [("a.b".data, OutTree.str "x".data),
        ("a".data, OutTree.obj [("b".data, OutTree.str "y".data)])]) "1".data).map
          Prod.snd).Nodup := by
  have heval : walkLeaves (OutTree.obj [("a.b".data, OutTree.str "x".data),
      ("a".data, OutTree.obj [("b".data, OutTree.str "y".data)])]) "1".data =
      [(LeafVal.strv "x".data, "1.a.b".data), (LeafVal.strv "y".data, "1.a.b".data)] := by
    simp only [walkLeaves, walkObj]
    decide
  refine ⟨heval, ?_⟩
  rw [heval]
  decide

end ComfyUISDK
